import Mathlib

set_option maxHeartbeats 1000000
set_option maxRecDepth 4000
set_option synthInstance.maxSize 2000
set_option linter.unusedVariables false

/-!
Verification development for `ld-trace.py`: a shallow embedding of the
symbol/reference data model, the path pruner (`prune_link_ref_path`), the
recursive path explorer (`walk_link_ref_paths`), the per-symbol reporting
loop, the duplicate-definition warning pass and the relocation-target
parser, together with theorems about their behaviour.

The Python program stores its tables in `defaultdict`s; looking up a missing
key in a `defaultdict` inserts a default entry.  The embedding therefore
threads an explicit `Env` value through the explorer, and the lookup
functions return the (possibly extended) environment alongside the value.
The explorer itself is embedded with a fuel parameter (`none` = fuel
exhausted); termination of the Python recursion corresponds to the theorem
that enough fuel always yields `some`.
-/

namespace LdTrace

/-- A translation unit identified by `(name, archive)` (class `Object`). -/
structure Object where
  name : String
  archive : String
  deriving DecidableEq

/-- A named subdivision of an object (class `Section`); `obj` is the
back-reference to the owning object.  (The source field is called `obj` too.) -/
structure Section where
  name : String
  obj : Object
  deriving DecidableEq

/-- A defined symbol record (class `DefinedSymbol`).  `type` is the nm kind
letter (`"T"`, `"t"` or `"W"`); `sec` is the source's `section` field, renamed
because `section` is a Lean keyword. -/
structure DefinedSymbol where
  name : String
  type : String
  is_global : Bool
  src : String
  sec : Section
  deriving DecidableEq

/-- A directed reference edge (class `SymbolReference`). -/
structure SymbolReference where
  referencing_sym : DefinedSymbol
  referenced_sym : String
  src : String
  deriving DecidableEq

/-- The retention unit pulled in by the linker: a whole `Object`, or a
`Section` when `--gc-sections` is active (the `group: Union[Object, Section]`
field of `LinkReference`). -/
inductive Group where
  | obj (o : Object)
  | sec (s : Section)
  deriving DecidableEq

/-- The `ref: Union[SymbolReference, DefinedSymbol]` field of
`LinkReference`: a direct witness (a genuine reference edge) or an indirect
co-location witness (the visited symbol itself). -/
inductive RefWitness where
  | direct (r : SymbolReference)
  | indirect (sym : DefinedSymbol)
  deriving DecidableEq

/-- One step of a retention chain (class `LinkReference`).  In the source,
`refs` is a `frozenset`; it is embedded as a list in grouping order (the
iteration order of a CPython `frozenset` of these records depends on the
process's randomized string hashes, see the witness-selection theorems). -/
structure LinkReference where
  group : Group
  refs : List SymbolReference
  ref : RefWitness
  deriving DecidableEq

abbrev LinkReferencePath := List LinkReference

/-- The link-mode configuration invariant established by the argument
processing (ld-trace.py lines 103-111): either `--whole-archive` is in effect
and `args.require_defined` is `None`, or a (non-empty, by defaulting to
`['_start']`) required-entry-point list is in effect. -/
inductive LinkMode where
  | wholeArchive
  | requireDefined (req : List String)
  deriving DecidableEq

/-- The option record consulted by the pruner and the explorer. -/
structure Config where
  mode : LinkMode
  gc_sections : Bool
  direct_only : Bool
  first_only : Bool
  deriving DecidableEq

/-- `isinstance(link_ref.ref, DefinedSymbol)`: the step's witness is an
indirect (co-location) witness. -/
def is_indirect (lr : LinkReference) : Bool :=
  match lr.ref with
  | .indirect _ => true
  | .direct _ => false

/-- The step's witness symbol name as derived by the pruner's loop body:
the referencing symbol's name for a direct witness, the symbol's own name
for an indirect witness. -/
def witness_sym_name (lr : LinkReference) : String :=
  match lr.ref with
  | .direct r => r.referencing_sym.name
  | .indirect d => d.name

/-- The scanning loop of `prune_link_ref_path` (lines 391-403), operating on
the reversed path (`path[::-1]`), with `i` the enumeration index, `n` the
path length and `found` the current `found_required_at` value (`none` encodes
`-1`).  The result is `none` for the early `return tuple()` taken when
`direct_only` is set and an indirect witness is scanned, and `some found` for
normal loop exit (including the `break`). -/
def prune_scan (d_only : Bool) (req : List String) (n : Nat) :
    List LinkReference → Nat → Option Nat → Option (Option Nat)
  | [], _, found => some found
  | lr :: rest, i, found =>
    match lr.ref with
    | .indirect d =>
      if d_only then none
      else if found = none ∧ d.name ∈ req then some (some (n - 1 - i))
      else prune_scan d_only req n rest (i + 1) found
    | .direct r =>
      if found = none ∧ r.referencing_sym.name ∈ req then
        (if d_only then prune_scan d_only req n rest (i + 1) (some (n - 1 - i))
         else some (some (n - 1 - i)))
      else prune_scan d_only req n rest (i + 1) found

/-- `prune_link_ref_path` (lines 383-409).  An empty result means the path is
rejected.  The `assert False` fall-through is unreachable because `LinkMode`
captures the configuration invariant (whole-archive mode or a required
entry-point list). -/
def prune_link_ref_path (cfg : Config) (path : LinkReferencePath) : LinkReferencePath :=
  if path.isEmpty then path
  else
    match cfg.mode with
    | .wholeArchive =>
      if cfg.direct_only && path.any is_indirect then [] else path
    | .requireDefined req =>
      match prune_scan cfg.direct_only req path.length path.reverse 0 none with
      | none => []
      | some none => []
      | some (some k) => path.take (k + 1)

/-- Index of the first element satisfying `p`. -/
def find_first_idx {α : Type} (p : α → Bool) : List α → Option Nat
  | [] => none
  | a :: rest => if p a then some 0 else (find_first_idx p rest).map (· + 1)

/-! ### Sorting and grouping of the incoming references

`walk_link_ref_paths` sorts the incoming references by their retention group
(the referencing symbol's `Section` under `--gc-sections`, else its `Object`)
and then groups consecutive equal keys (`itertools.groupby`).  Python's
`sorted` compares the `NamedTuple` keys lexicographically; `isort` below is
the stable insertion sort used to model it. -/

def obj_cmp (a b : Object) : Ordering :=
  (compare a.name b.name).then (compare a.archive b.archive)

def sec_cmp (a b : Section) : Ordering :=
  (compare a.name b.name).then (obj_cmp a.obj b.obj)

/-- The retention group of a reference edge: the referencing symbol's section
under `--gc-sections`, otherwise its object. -/
def group_of_ref (cfg : Config) (r : SymbolReference) : Group :=
  if cfg.gc_sections then .sec r.referencing_sym.sec else .obj r.referencing_sym.sec.obj

/-- `a` sorts no later than `b` under the walk's sort key. -/
def ref_le (cfg : Config) (a b : SymbolReference) : Bool :=
  match (if cfg.gc_sections then sec_cmp a.referencing_sym.sec b.referencing_sym.sec
         else obj_cmp a.referencing_sym.sec.obj b.referencing_sym.sec.obj) with
  | .gt => false
  | _ => true

def insert_le {α : Type} (le : α → α → Bool) (x : α) : List α → List α
  | [] => [x]
  | y :: ys => if le y x then y :: insert_le le x ys else x :: y :: ys

/-- Stable sort: elements are inserted left to right, each after the existing
elements that compare no greater. -/
def isort {α : Type} (le : α → α → Bool) (l : List α) : List α :=
  l.foldl (fun acc x => insert_le le x acc) []

/-- Group consecutive elements with equal keys (`itertools.groupby` over a
sorted list), keeping each group's elements in order. -/
def group_pairs {α κ : Type} [DecidableEq κ] (key : α → κ) : List α → List (κ × List α)
  | [] => []
  | a :: rest =>
    match group_pairs key rest with
    | [] => [(key a, [a])]
    | (k, grp) :: tail =>
      if key a = k then (k, a :: grp) :: tail
      else (key a, [a]) :: (k, grp) :: tail

/-- The per-group partition of a symbol's incoming references, in visiting
order (lines 427-431 and 460-464). -/
def grouped_refs (cfg : Config) (l : List SymbolReference) : List (Group × List SymbolReference) :=
  group_pairs (group_of_ref cfg) (isort (ref_le cfg) l)

/-- `next((r for r in sym_refs_ if r.referencing_sym == sym), sym)`
(lines 453 and 490): the first reference of the iteration originating from
exactly `sym` is the direct witness, else `sym` itself is the indirect
witness.  `iter` is the iteration order of the group's reference set; the
source iterates a `frozenset`, whose order CPython derives from the
process-specific randomized string hashes. -/
def select_witness (iter : List SymbolReference) (sym : DefinedSymbol) : RefWitness :=
  match iter.find? (fun r => decide (r.referencing_sym = sym)) with
  | some r => .direct r
  | none => .indirect sym

/-! ### The environment (the program's global tables) -/

/-- Association-list lookup modelling Python `dict` lookup (keys are unique
in a `dict`; first match). -/
def alookup {α β : Type} [DecidableEq α] (k : α) : List (α × β) → Option β
  | [] => none
  | (a, b) :: rest => if a = k then some b else alookup k rest

/-- Replace the value stored under an existing key, keeping insertion order. -/
def update_assoc {α β : Type} [DecidableEq α] (k : α) (v : β) : List (α × β) → List (α × β)
  | [] => []
  | (a, b) :: rest => if a = k then (a, v) :: rest else (a, b) :: update_assoc k v rest

/-- The program's global tables after the build phase: `defs`, `global_defs`,
`defs_grouped` and `refs` (lines 156-163), all insertion-ordered
`defaultdict`s embedded as association lists. -/
structure Env where
  defs : List (String × List DefinedSymbol)
  global_defs : List (String × List DefinedSymbol)
  defs_grouped : List (Object × List (Section × List (String × DefinedSymbol)))
  refs : List (String × List SymbolReference)
  deriving DecidableEq

/-- The value `refs[n]` would have, without the `defaultdict` insertion. -/
def refs_val (env : Env) (n : String) : List SymbolReference :=
  (alookup n env.refs).getD []

/-- The inner per-object table of `defs_grouped`, without insertion. -/
def inner_obj (env : Env) (o : Object) : List (Section × List (String × DefinedSymbol)) :=
  (alookup o env.defs_grouped).getD []

/-- Flatten the per-object table: all symbols of all sections of an object,
in insertion order. -/
def flat_sections : List (Section × List (String × DefinedSymbol)) → List DefinedSymbol
  | [] => []
  | p :: rest => p.2.map Prod.snd ++ flat_sections rest

/-- The defined symbols the walk iterates for a group (values of
`defs_grouped[obj][section]` resp. all of `defs_grouped[obj]`), without the
`defaultdict` insertion side effect. -/
def group_syms_val (env : Env) : Group → List DefinedSymbol
  | .obj o => flat_sections (inner_obj env o)
  | .sec sc => ((alookup sc (inner_obj env sc.obj)).getD []).map Prod.snd

/-- `refs[sym_name]` as executed: a missing key inserts an empty entry
(`defaultdict(list)` semantics). -/
def refs_lookup (env : Env) (n : String) : List SymbolReference × Env :=
  match alookup n env.refs with
  | some v => (v, env)
  | none => ([], { env with refs := env.refs ++ [(n, [])] })

/-- `defs_grouped[...]` as executed by the walk's group iteration, with the
`defaultdict` insertions of missing keys (at either level). -/
def group_syms (env : Env) : Group → List DefinedSymbol × Env
  | .obj o =>
    match alookup o env.defs_grouped with
    | some inner => (flat_sections inner, env)
    | none => ([], { env with defs_grouped := env.defs_grouped ++ [(o, [])] })
  | .sec sc =>
    match alookup sc.obj env.defs_grouped with
    | none => ([], { env with defs_grouped := env.defs_grouped ++ [(sc.obj, [(sc, [])])] })
    | some inner =>
      match alookup sc inner with
      | none =>
        ([], { env with defs_grouped := update_assoc sc.obj (inner ++ [(sc, [])]) env.defs_grouped })
      | some syms => (syms.map Prod.snd, env)

/-- Groups of the visited prefix (`set(link_ref.group for link_ref in head_path)`). -/
def path_groups (hp : LinkReferencePath) : List Group :=
  hp.map LinkReference.group

/-- All retention groups of all reference edges of a reference index. -/
def refs_groups (cfg : Config) : List (String × List SymbolReference) → List Group
  | [] => []
  | p :: rest => p.2.map (group_of_ref cfg) ++ refs_groups cfg rest

/-- All retention groups occurring anywhere in the reference index. -/
def env_groups (cfg : Config) (env : Env) : List Group :=
  (refs_groups cfg env.refs).dedup

/-- Number of environment groups not yet on the visited prefix: the walk's
recursion-depth budget. -/
def remaining (cfg : Config) (env : Env) (hp : LinkReferencePath) : Nat :=
  ((env_groups cfg env).filter (fun g => decide (g ∉ path_groups hp))).length

/-! ### The path explorer

`walk_link_ref_paths` (lines 411-496), with fuel.  `walk_syms` is the inner
per-symbol loop of one group, `walk_groups` the per-group loop; both take the
recursive walk as the function argument `wf`.  The result carries the
(possibly `defaultdict`-extended) environment, the callback state and the
continue/stop flag; `none` means the fuel ran out. -/

def walk_syms {σ : Type} (wf : String → LinkReferencePath → Env → σ → Option (Env × σ × Bool))
    (head_path : LinkReferencePath) (g : Group) (grefs : List SymbolReference) :
    List DefinedSymbol → Env → σ → Option (Env × σ × Bool)
  | [], env, s => some (env, s, true)
  | sym :: rest, env, s =>
    match wf sym.name (head_path ++ [⟨g, grefs, select_witness grefs sym⟩]) env s with
    | none => none
    | some r => if r.2.2 then walk_syms wf head_path g grefs rest r.1 r.2.1 else some r

def walk_groups {σ : Type} (wf : String → LinkReferencePath → Env → σ → Option (Env × σ × Bool))
    (cfg : Config) (cb : σ → LinkReferencePath → σ × Bool) (head_path : LinkReferencePath) :
    List (Group × List SymbolReference) → Env → σ → Option (Env × σ × Bool)
  | [], env, s => some (env, s, true)
  | (g, grefs) :: rest, env, s =>
    if g ∈ path_groups head_path then
      -- cycle closed: prune the current prefix, report if accepted, and
      -- return from this frame without visiting the remaining groups
      let pruned := prune_link_ref_path cfg head_path
      if pruned.isEmpty then some (env, s, true)
      else
        let r := cb s pruned
        some (env, r.1, r.2)
    else
      let gs := group_syms env g
      match walk_syms wf head_path g grefs gs.1 gs.2 s with
      | none => none
      | some r => if r.2.2 then walk_groups wf cfg cb head_path rest r.1 r.2.1 else some r

def walk_link_ref_paths {σ : Type} (cfg : Config) (cb : σ → LinkReferencePath → σ × Bool) :
    Nat → String → LinkReferencePath → Env → σ → Option (Env × σ × Bool)
  | 0, _, _, _, _ => none
  | fuel + 1, sym_name, head_path, env, s =>
    let lk := refs_lookup env sym_name
    if lk.1.isEmpty then
      let pruned := prune_link_ref_path cfg head_path
      if pruned.isEmpty then some (lk.2, s, true)
      else
        let r := cb s pruned
        some (lk.2, r.1, r.2)
    else
      walk_groups (fun n hp e st => walk_link_ref_paths cfg cb fuel n hp e st) cfg cb head_path
        (grouped_refs cfg lk.1) lk.2 s

/-! ### The reporting callback and the per-symbol loop (lines 523-556) -/

/-- `on_path_found`: the deduplicating callback.  `seen` is the set of
already-reported pruned paths in report order; a duplicate is ignored
(continue), a new path is recorded and, under `--first-only`, the search is
asked to stop. -/
def dedup_cb (f_only : Bool) (seen : List LinkReferencePath) (p : LinkReferencePath) :
    List LinkReferencePath × Bool :=
  if p ∈ seen then (seen, true) else (seen ++ [p], !f_only)

/-- Instrument an arbitrary callback with a log of its invocations: each call
appends the path it was invoked on together with the continue flag it
returned. -/
def log_cb {σ : Type} (cb : σ → LinkReferencePath → σ × Bool) :
    σ × List (LinkReferencePath × Bool) → LinkReferencePath →
      (σ × List (LinkReferencePath × Bool)) × Bool :=
  fun sl p =>
    let r := cb sl.1 p
    ((r.1, sl.2 ++ [(p, r.2)]), r.2)

/-- A well-formed cancellation log fragment: if the overall flag is `true`,
every logged invocation returned `true`; if it is `false`, the final logged
invocation returned `false` and every earlier one returned `true` — i.e. no
invocation happens after a `false` return, and the `false` reaches the
top-level result. -/
def StopLog (d : List (LinkReferencePath × Bool)) (c : Bool) : Prop :=
  (c = true ∧ ∀ e ∈ d, e.2 = true) ∨
  (c = false ∧ ∃ pre p, d = pre ++ [(p, false)] ∧ ∀ e ∈ pre, e.2 = true)

/-- The invocation log grew by a well-formed fragment. -/
def stop_log_extends (log log' : List (LinkReferencePath × Bool)) (c : Bool) : Prop :=
  ∃ d, log' = log ++ d ∧ StopLog d c

/-- The outcome of the per-symbol reporting loop body (lines 524-556):
`defined_syms` is `global_defs[sym] or defs[sym]`, `reported` the deduplicated
paths in report order, `no_paths_found` whether the final
"No paths found" message is printed. -/
structure TraceResult where
  defined_syms : List DefinedSymbol
  reported : List LinkReferencePath
  no_paths_found : Bool
  deriving DecidableEq

/-- `global_defs[n]` with `defaultdict` insertion. -/
def global_defs_lookup (env : Env) (n : String) : List DefinedSymbol × Env :=
  match alookup n env.global_defs with
  | some v => (v, env)
  | none => ([], { env with global_defs := env.global_defs ++ [(n, [])] })

/-- `defs[n]` with `defaultdict` insertion. -/
def defs_lookup (env : Env) (n : String) : List DefinedSymbol × Env :=
  match alookup n env.defs with
  | some v => (v, env)
  | none => ([], { env with defs := env.defs ++ [(n, [])] })

/-- One iteration of the `for sym_name in args.trace_symbol` loop:
look up the traced symbol (`global_defs[sym_name] or defs[sym_name]`), run
the walk with the deduplicating callback, report "No paths found" iff nothing
was accepted.  `none` means the walk's fuel ran out. -/
def trace_symbol (cfg : Config) (fuel : Nat) (env : Env) (n : String) :
    Option (Env × TraceResult) :=
  let g := global_defs_lookup env n
  let d := if g.1.isEmpty then defs_lookup g.2 n else g
  match walk_link_ref_paths cfg (dedup_cb cfg.first_only) fuel n [] d.2 [] with
  | none => none
  | some (env', seen, _) => some (env', ⟨d.1, seen, seen.isEmpty⟩)

/-! ### Environment well-formedness and frame predicates -/

/-- The invariant the build phase establishes: every reference edge's
referencing symbol is recorded in `defs_grouped` under its own retention
group (the reference builder only emits an edge after looking the symbol up
there, lines 310-323). -/
def WF (cfg : Config) (env : Env) : Prop :=
  ∀ p ∈ env.refs, ∀ r ∈ p.2, r.referencing_sym ∈ group_syms_val env (group_of_ref cfg r)

instance (cfg : Config) (env : Env) : Decidable (WF cfg env) := by
  unfold WF
  infer_instance

/-- The reference index after a walk: the original entries unchanged, plus
possibly some empty entries appended by `defaultdict` lookups of missing
names. -/
def refs_empty_extension (l l' : List (String × List SymbolReference)) : Prop :=
  ∃ es, l' = l ++ es ∧ ∀ p ∈ es, p.2 = []

/-- The grouped-definition table after a walk: for every object, the old
per-section entries unchanged, plus possibly some empty sections appended by
`defaultdict` lookups of missing keys. -/
def dg_empty_extension (dg dg' : List (Object × List (Section × List (String × DefinedSymbol)))) :
    Prop :=
  ∀ o, ∃ es, (alookup o dg').getD [] = (alookup o dg).getD [] ++ es ∧ ∀ p ∈ es, p.2 = []

/-- How a walk may change the environment: `defs` and `global_defs` untouched,
`refs` and `defs_grouped` extended only by empty default entries. -/
def EnvExt (env env' : Env) : Prop :=
  env'.defs = env.defs ∧ env'.global_defs = env.global_defs ∧
  refs_empty_extension env.refs env'.refs ∧
  dg_empty_extension env.defs_grouped env'.defs_grouped

/-- The walk from a traced symbol reports at least one accepted path (the
deduplicating callback ends with a non-empty report list). -/
def walk_reports_a_path (cfg : Config) (fuel : Nat) (env : Env) (n : String) : Prop :=
  ∃ env' seen c,
    walk_link_ref_paths cfg (dedup_cb cfg.first_only) fuel n [] env [] = some (env', seen, c) ∧
    seen ≠ []

/-! ### Duplicate-definition warnings and the pipeline skeleton
(lines 255-266 and the top-level flow) -/

/-- The warning printed for a multiply-defined global symbol; `listed` is the
full `global_defs[name]` list the warning enumerates. -/
structure ConflictWarning where
  name : String
  listed : List DefinedSymbol
  deriving DecidableEq

/-- `sum(sym.type == 'T' for sym in syms)`: the number of global non-weak
definitions among a name's global definitions. -/
def non_weak_global_count (syms : List DefinedSymbol) : Nat :=
  (syms.filter (fun s => decide (s.type = "T"))).length

/-- The `for name, syms in global_defs.items()` warning loop: a name with at
most one non-weak global definition is skipped; otherwise a warning is
emitted and, with `--fatal-warnings`, the run exits immediately (the `Bool`
component; later names are not examined). -/
def emit_conflict_warnings (fatal : Bool) :
    List (String × List DefinedSymbol) → List ConflictWarning × Bool
  | [] => ([], false)
  | (n, syms) :: rest =>
    if non_weak_global_count syms ≤ 1 then emit_conflict_warnings fatal rest
    else if fatal then ([⟨n, syms⟩], true)
    else
      let w := emit_conflict_warnings fatal rest
      (⟨n, syms⟩ :: w.1, w.2)

inductive PipelineError where
  | fatalWarnings (ws : List ConflictWarning)
  | requiredNotFound (n : String)
  deriving DecidableEq

/-- `if sym_name not in defs: raise RuntimeError(...)` (lines 263-266): the
first required entry point with no definition at all. -/
def required_missing (env : Env) : LinkMode → Option String
  | .wholeArchive => none
  | .requireDefined req => req.find? (fun n => decide (alookup n env.defs = none))

/-- The per-traced-symbol loop over `args.trace_symbol`. -/
def trace_all (cfg : Config) (fuel : Nat) :
    List String → Env → List (String × Option TraceResult) × Env
  | [], env => ([], env)
  | n :: rest, env =>
    match trace_symbol cfg fuel env n with
    | none =>
      let t := trace_all cfg fuel rest env
      ((n, none) :: t.1, t.2)
    | some (env', r) =>
      let t := trace_all cfg fuel rest env'
      ((n, some r) :: t.1, t.2)

/-- The top-level flow after the symbol tables are built: emit the
duplicate-definition warnings (exiting if fatal), check the required entry
points exist, then and only then run the path searches. -/
def run_pipeline (cfg : Config) (fatal : Bool) (fuel : Nat) (env : Env)
    (trace_syms : List String) :
    Except PipelineError (List ConflictWarning × List (String × Option TraceResult)) :=
  let w := emit_conflict_warnings fatal env.global_defs
  if w.2 then .error (.fatalWarnings w.1)
  else
    match required_missing env cfg.mode with
    | some n => .error (.requiredNotFound n)
    | none => .ok (w.1, (trace_all cfg fuel trace_syms env).1)

/-! ### Relocation-target parsing (lines 300-343) -/

/-- Python `str.replace(pat, repl)`: replace every non-overlapping occurrence
left to right.  The fuel argument (initialised to the string length, consumed
one unit per examined position) only makes the recursion structural; it never
runs out because each step consumes at least one character. -/
def replace_all_aux (pat repl : List Char) : Nat → List Char → List Char
  | 0, l => l
  | _ + 1, [] => []
  | fuel + 1, c :: rest =>
    if pat ≠ [] ∧ pat.isPrefixOf (c :: rest) then
      repl ++ replace_all_aux pat repl fuel ((c :: rest).drop pat.length)
    else c :: replace_all_aux pat repl fuel rest

def replace_all (pat repl l : List Char) : List Char :=
  replace_all_aux pat repl l.length l

/-- Python `str.index(pat)`: index of the first occurrence of a substring. -/
def find_substr_idx (pat : List Char) : List Char → Option Nat
  | [] => if pat = [] then some 0 else none
  | c :: rest =>
    if pat.isPrefixOf (c :: rest) then some 0
    else (find_substr_idx pat rest).map (· + 1)

/-- The two relocation kinds the builder recognises (line 300). -/
inductive RelocKind where
  | plt32
  | pc32
  deriving DecidableEq

inductive RelocParse where
  | skipped
  | emitted (target : String)
  | assertionFailure
  deriving DecidableEq

/-- `ref_sym.startswith('.')` (line 327). -/
def starts_with_dot : List Char → Bool
  | '.' :: _ => true
  | _ => false

/-- Lines 324-339: strip `.text.` from the relocation operand; a result still
starting with a dot is skipped for `R_X86_64_PC32` but hits `assert not
starts_with_dot` for `R_X86_64_PLT32`; otherwise the operand is split at the
first `-0x` addend marker (no marker: skipped). -/
def process_reloc_target (kind : RelocKind) (operand : String) : RelocParse :=
  let ref_sym := replace_all ".text.".data [] operand.data
  if starts_with_dot ref_sym then
    match kind with
    | .pc32 => .skipped
    | .plt32 => .assertionFailure
  else
    match find_substr_idx "-0x".data ref_sym with
    | none => .skipped
    | some i => .emitted (String.mk (ref_sym.take i))

/-! ### Concrete sample data used by the witnesses and counterexamples -/

def oA : Object := ⟨"a.o", "liba.a"⟩
def sA : Section := ⟨".text", oA⟩
def dA : DefinedSymbol := ⟨"a", "T", true, "a.c:1", sA⟩
def rAb : SymbolReference := ⟨dA, "b", "a.c:2"⟩

def oB : Object := ⟨"b.o", "libb.a"⟩
def sB : Section := ⟨".text", oB⟩
def dB : DefinedSymbol := ⟨"B", "T", true, "b.c:1", sB⟩
def rBt : SymbolReference := ⟨dB, "t", "b.c:2"⟩

def oX : Object := ⟨"x.o", "libx.a"⟩
def sX : Section := ⟨".text", oX⟩
def dX : DefinedSymbol := ⟨"x", "t", false, "x.c:1", sX⟩
def rXy : SymbolReference := ⟨dX, "y", "x.c:2"⟩

def oY : Object := ⟨"y.o", "liby.a"⟩
def sY : Section := ⟨".text", oY⟩
def dY : DefinedSymbol := ⟨"y", "T", true, "y.c:1", sY⟩
def rYx : SymbolReference := ⟨dY, "x", "y.c:2"⟩

/-- A direct step whose witness symbol name is `"a"`. -/
def stepA : LinkReference := ⟨.obj oA, [rAb], .direct rAb⟩
/-- A direct step whose witness symbol name is `"B"`. -/
def stepB : LinkReference := ⟨.obj oB, [rBt], .direct rBt⟩
/-- An indirect (co-location) step whose witness symbol name is `"x"`. -/
def stepX : LinkReference := ⟨.obj oX, [], .indirect dX⟩

/-- Whole-archive mode, object granularity, no strictness flags. -/
def cfgWA : Config := ⟨.wholeArchive, false, false, false⟩

/-- Required-entry-point mode anchored at `"B"`, `--direct-only` off. -/
def cfgReq : Config := ⟨.requireDefined ["B"], false, false, false⟩

/-- Required-entry-point mode anchored at `"B"`, `--direct-only` on. -/
def cfgReqD : Config := ⟨.requireDefined ["B"], false, true, false⟩

/-- One object `a.o` defining `a`, which references the (undefined) name
`b`. -/
def envA : Env :=
  { defs := [("a", [dA])]
    global_defs := [("a", [dA])]
    defs_grouped := [(oA, [(sA, [("a", dA)])])]
    refs := [("b", [rAb])] }

/-- A cyclic reference graph: `x` (in `x.o`) and `y` (in `y.o`) reference
each other. -/
def envCyc : Env :=
  { defs := [("x", [dX]), ("y", [dY])]
    global_defs := [("y", [dY])]
    defs_grouped := [(oX, [(sX, [("x", dX)])]), (oY, [(sY, [("y", dY)])])]
    refs := [("x", [rYx]), ("y", [rXy])] }

/-- A callback that counts its invocations and always continues. -/
def count_cb : Nat → LinkReferencePath → Nat × Bool := fun k _ => (k + 1, true)

/-- `envA` after a walk from `"b"`: the `defaultdict` lookup of the missing
key `"a"` has appended an empty entry to `refs`. -/
def envA' : Env := { envA with refs := envA.refs ++ [("a", [])] }

/-- Two conflicting (global, non-weak) definitions of `foo`. -/
def dFoo1 : DefinedSymbol := ⟨"foo", "T", true, "f1.c:1", sA⟩
def dFoo2 : DefinedSymbol := ⟨"foo", "T", true, "f2.c:1", sB⟩

/-- A `global_defs` table with one conflicting name (`foo`) and one clean
name (`ok`). -/
def gd9 : List (String × List DefinedSymbol) :=
  [("foo", [dFoo1, dFoo2]), ("ok", [dA])]

def env9 : Env :=
  { defs := [("foo", [dFoo1, dFoo2]), ("ok", [dA])]
    global_defs := gd9
    defs_grouped := []
    refs := [] }

/-- Two distinct references from the same referencing symbol `a` (different
source locations), as arise when one function references the traced symbol
twice. -/
def rW1 : SymbolReference := ⟨dA, "t", "a.c:5"⟩
def rW2 : SymbolReference := ⟨dA, "t", "a.c:9"⟩

/-! ## Theorems -/

/-! ### Generic list lemmas -/

theorem find_first_idx_lt {α : Type} (p : α → Bool) :
    ∀ (l : List α) (j : Nat), find_first_idx p l = some j → j < l.length := by
  intro l
  induction l with
  | nil => intro j h; simp [find_first_idx] at h
  | cons a rest ih =>
    intro j h
    simp only [find_first_idx] at h
    by_cases hp : p a
    · rw [if_pos hp] at h
      injection h with h
      simp only [List.length_cons]
      omega
    · rw [if_neg hp] at h
      cases hj' : find_first_idx p rest with
      | none => rw [hj'] at h; simp at h
      | some j' =>
        rw [hj'] at h
        simp only [Option.map_some'] at h
        injection h with h
        have := ih j' hj'
        simp only [List.length_cons]
        omega

theorem find_first_idx_eq_none_iff {α : Type} (p : α → Bool) :
    ∀ l : List α, find_first_idx p l = none ↔ ∀ x ∈ l, p x = false := by
  intro l
  induction l with
  | nil => simp [find_first_idx]
  | cons a rest ih =>
    simp only [find_first_idx]
    by_cases hp : p a
    · simp only [if_pos hp]
      constructor
      · intro h; simp at h
      · intro h
        have := h a (by simp)
        rw [this] at hp
        simp at hp
    · simp only [if_neg hp, Option.map_eq_none', ih]
      constructor
      · intro h x hx
        rcases List.mem_cons.mp hx with rfl | hx
        · simpa using hp
        · exact h x hx
      · intro h x hx
        exact h x (by simp [hx])

theorem find_first_idx_mem {α : Type} (p : α → Bool) :
    ∀ (l : List α) (j : Nat), find_first_idx p l = some j → ∃ x ∈ l, p x = true := by
  intro l
  induction l with
  | nil => intro j h; simp [find_first_idx] at h
  | cons a rest ih =>
    intro j h
    simp only [find_first_idx] at h
    by_cases hp : p a
    · exact ⟨a, by simp, hp⟩
    · rw [if_neg hp] at h
      cases hj' : find_first_idx p rest with
      | none => rw [hj'] at h; simp at h
      | some j' =>
        obtain ⟨x, hx, hpx⟩ := ih j' hj'
        exact ⟨x, by simp [hx], hpx⟩

/-! ### Pruner lemmas -/

theorem prune_nil (cfg : Config) : prune_link_ref_path cfg [] = [] := rfl

/-- The scan loop without `--direct-only`: it stops at the first step (in
reversed-path order) whose witness name is required, recording the
corresponding original index `n - 1 - (i + j)`. -/
theorem prune_scan_false_spec (req : List String) (n : Nat) :
    ∀ (l : List LinkReference) (i : Nat),
      prune_scan false req n l i none =
        some ((find_first_idx (fun lr => decide (witness_sym_name lr ∈ req)) l).map
          (fun j => n - 1 - (i + j))) := by
  intro l
  induction l with
  | nil => intro i; rfl
  | cons lr rest ih =>
    intro i
    have hshift : ∀ x : Option Nat,
        Option.map (fun j => n - 1 - (i + 1 + j)) x =
          Option.map (fun j => n - 1 - (i + j)) (Option.map (· + 1) x) := by
      intro x
      cases x with
      | none => rfl
      | some j =>
        simp only [Option.map_some']
        congr 1
        omega
    rcases lr with ⟨g, rs, w⟩
    cases w with
    | direct r =>
      by_cases h : r.referencing_sym.name ∈ req
      · simp [prune_scan, find_first_idx, witness_sym_name, h]
      · rw [show prune_scan false req n (⟨g, rs, .direct r⟩ :: rest) i none
              = prune_scan false req n rest (i + 1) none from by
            simp [prune_scan, h]]
        rw [ih (i + 1)]
        rw [show find_first_idx (fun lr => decide (witness_sym_name lr ∈ req))
              (⟨g, rs, .direct r⟩ :: rest)
              = (find_first_idx (fun lr => decide (witness_sym_name lr ∈ req)) rest).map
                  (· + 1) from by
            simp [find_first_idx, witness_sym_name, h]]
        rw [hshift]
    | indirect d =>
      by_cases h : d.name ∈ req
      · simp [prune_scan, find_first_idx, witness_sym_name, h]
      · rw [show prune_scan false req n (⟨g, rs, .indirect d⟩ :: rest) i none
              = prune_scan false req n rest (i + 1) none from by
            simp [prune_scan, h]]
        rw [ih (i + 1)]
        rw [show find_first_idx (fun lr => decide (witness_sym_name lr ∈ req))
              (⟨g, rs, .indirect d⟩ :: rest)
              = (find_first_idx (fun lr => decide (witness_sym_name lr ∈ req)) rest).map
                  (· + 1) from by
            simp [find_first_idx, witness_sym_name, h]]
        rw [hshift]

/-- With `--direct-only`, the scan rejects as soon as it reaches an indirect
witness, wherever that is relative to the anchor. -/
theorem prune_scan_true_none_of_indirect (req : List String) (n : Nat) :
    ∀ (l : List LinkReference) (i : Nat) (found : Option Nat),
      (∃ lr ∈ l, is_indirect lr = true) →
      prune_scan true req n l i found = none := by
  intro l
  induction l with
  | nil => intro i found h; simp at h
  | cons lr rest ih =>
    intro i found h
    rcases lr with ⟨g, rs, w⟩
    cases w with
    | direct r =>
      have hrest : ∃ lr ∈ rest, is_indirect lr = true := by
        obtain ⟨x, hx, hix⟩ := h
        rcases List.mem_cons.mp hx with rfl | hx
        · simp [is_indirect] at hix
        · exact ⟨x, hx, hix⟩
      simp only [prune_scan]
      by_cases hc : found = none ∧ r.referencing_sym.name ∈ req
      · rw [if_pos hc]
        exact ih _ _ hrest
      · rw [if_neg hc]
        exact ih _ _ hrest
    | indirect d => simp [prune_scan]

/-- With `--direct-only` and no indirect witness present, the scan walks the
whole list; the first required witness (if any, and if none was found
earlier) is recorded. -/
theorem prune_scan_true_all_direct (req : List String) (n : Nat) :
    ∀ (l : List LinkReference) (i : Nat) (found : Option Nat),
      (∀ lr ∈ l, is_indirect lr = false) →
      prune_scan true req n l i found =
        some (match found with
          | some k => some k
          | none =>
            (find_first_idx (fun lr => decide (witness_sym_name lr ∈ req)) l).map
              (fun j => n - 1 - (i + j))) := by
  intro l
  induction l with
  | nil =>
    intro i found _
    cases found <;> rfl
  | cons lr rest ih =>
    intro i found hall
    have hshift : ∀ x : Option Nat,
        Option.map (fun j => n - 1 - (i + 1 + j)) x =
          Option.map (fun j => n - 1 - (i + j)) (Option.map (· + 1) x) := by
      intro x
      cases x with
      | none => rfl
      | some j =>
        simp only [Option.map_some']
        congr 1
        omega
    rcases lr with ⟨g, rs, w⟩
    cases w with
    | indirect d =>
      have := hall ⟨g, rs, .indirect d⟩ (by simp)
      simp [is_indirect] at this
    | direct r =>
      have hrest : ∀ lr ∈ rest, is_indirect lr = false := fun lr h => hall lr (by simp [h])
      cases found with
      | some k =>
        rw [show prune_scan true req n (⟨g, rs, .direct r⟩ :: rest) i (some k)
              = prune_scan true req n rest (i + 1) (some k) from by
            simp [prune_scan]]
        rw [ih _ _ hrest]
      | none =>
        by_cases h : r.referencing_sym.name ∈ req
        · rw [show prune_scan true req n (⟨g, rs, .direct r⟩ :: rest) i none
                = prune_scan true req n rest (i + 1) (some (n - 1 - i)) from by
              simp [prune_scan, h]]
          rw [ih _ _ hrest]
          rw [show find_first_idx (fun lr => decide (witness_sym_name lr ∈ req))
                (⟨g, rs, .direct r⟩ :: rest) = some 0 from by
              simp [find_first_idx, witness_sym_name, h]]
          simp
        · rw [show prune_scan true req n (⟨g, rs, .direct r⟩ :: rest) i none
                = prune_scan true req n rest (i + 1) none from by
              simp [prune_scan, h]]
          rw [ih _ _ hrest]
          rw [show find_first_idx (fun lr => decide (witness_sym_name lr ∈ req))
                (⟨g, rs, .direct r⟩ :: rest)
                = (find_first_idx (fun lr => decide (witness_sym_name lr ∈ req)) rest).map
                    (· + 1) from by
              simp [find_first_idx, witness_sym_name, h]]
          rw [hshift]

theorem isEmpty_false_of_ne_nil {α : Type} {l : List α} (h : l ≠ []) : l.isEmpty = false := by
  cases l with
  | nil => cases h rfl
  | cons a rest => rfl

/-- C1: In required-entry-point mode (without the strict direct-only flag,
whose interaction is the subject of the separate direct-only claim), the
pruner scans the path from the step nearest the retention root (the end of
the tuple, via `path[::-1]`) toward the step nearest the traced symbol, finds
the first step whose witness symbol name is in the required set, and returns
the prefix of the path ending at that step (`path[:found_required_at + 1]`);
if no step's witness name is in the set it returns the empty, rejected
path. -/
theorem prune_requireDefined_truncation (cfg : Config) (req : List String)
    (hmode : cfg.mode = .requireDefined req) (hreq : req ≠ [])
    (hdo : cfg.direct_only = false) (path : LinkReferencePath) (hne : path ≠ []) :
    prune_link_ref_path cfg path =
      match find_first_idx (fun lr => decide (witness_sym_name lr ∈ req)) path.reverse with
      | some i => path.take (path.length - i)
      | none => [] := by
  unfold prune_link_ref_path
  rw [hmode, hdo]
  simp only [isEmpty_false_of_ne_nil hne, Bool.false_eq_true, if_false]
  rw [prune_scan_false_spec]
  cases hfi : find_first_idx (fun lr => decide (witness_sym_name lr ∈ req)) path.reverse with
  | none => simp
  | some j =>
    simp only [Option.map_some']
    have hj : j < path.length := by
      have := find_first_idx_lt _ path.reverse j hfi
      simpa using this
    show path.take (path.length - 1 - (0 + j) + 1) = path.take (path.length - j)
    congr 1
    omega

/-- C1 witness: a three-step chain whose only required witness is the middle
step `stepB`; the accepted path is the two-step prefix ending at it. -/
theorem prune_requireDefined_truncation_witness :
    (["B"] : List String) ≠ [] ∧ ([stepA, stepB, stepX] : LinkReferencePath) ≠ [] ∧
    prune_link_ref_path cfgReq [stepA, stepB, stepX] =
      (match find_first_idx (fun lr => decide (witness_sym_name lr ∈ ["B"]))
          ([stepA, stepB, stepX] : LinkReferencePath).reverse with
      | some i => ([stepA, stepB, stepX] : LinkReferencePath).take
          (([stepA, stepB, stepX] : LinkReferencePath).length - i)
      | none => []) :=
  ⟨by decide, by decide,
    prune_requireDefined_truncation cfgReq ["B"] rfl (by decide) rfl _ (by decide)⟩

/-- C2 counterexample: with `--direct-only`, a two-step path whose root-most
step `stepB` is a direct required anchor (the first step of the root-to-leaf
scan) and whose only indirect step `stepX` is scanned strictly after the
anchor is nevertheless rejected: the scan loop does not break at the anchor
when `direct_only` is set and still rejects on the later indirect witness,
contradicting the claim that indirect witnesses encountered only after the
anchor do not cause rejection. -/
theorem prune_directOnly_after_anchor_counterexample :
    prune_link_ref_path cfgReqD [stepX, stepB] = [] ∧
    is_indirect stepB = false ∧ witness_sym_name stepB ∈ ["B"] ∧
    is_indirect stepX = true ∧ witness_sym_name stepX ∉ ["B"] := by
  decide

/-- C2 (amended): in required-entry-point mode with strict direct-only set,
the pruner rejects a non-empty path if and only if some step anywhere in the
path has an indirect witness — regardless of the step's position relative to
the anchor — or no step's witness name is in the required set. -/
theorem prune_requireDefined_directOnly_iff (cfg : Config) (req : List String)
    (hmode : cfg.mode = .requireDefined req) (hreq : req ≠ [])
    (hdo : cfg.direct_only = true) (path : LinkReferencePath) (hne : path ≠ []) :
    prune_link_ref_path cfg path = [] ↔
      (∃ lr ∈ path, is_indirect lr = true) ∨ ∀ lr ∈ path, witness_sym_name lr ∉ req := by
  unfold prune_link_ref_path
  rw [hmode, hdo]
  simp only [isEmpty_false_of_ne_nil hne, Bool.false_eq_true, if_false]
  by_cases hind : ∃ lr ∈ path, is_indirect lr = true
  · have hind' : ∃ lr ∈ path.reverse, is_indirect lr = true := by
      obtain ⟨lr, hlr, h⟩ := hind
      exact ⟨lr, by simpa using hlr, h⟩
    rw [prune_scan_true_none_of_indirect req path.length path.reverse 0 none hind']
    simp [hind]
  · have hall : ∀ lr ∈ path.reverse, is_indirect lr = false := by
      intro lr hlr
      by_contra hc
      exact hind ⟨lr, by simpa using hlr, by simpa using hc⟩
    rw [prune_scan_true_all_direct req path.length path.reverse 0 none hall]
    cases hfi : find_first_idx (fun lr => decide (witness_sym_name lr ∈ req)) path.reverse with
    | none =>
      simp only [hfi, Option.map_none']
      constructor
      · intro _
        right
        intro lr hlr
        have := (find_first_idx_eq_none_iff _ path.reverse).mp hfi lr (by simpa using hlr)
        simpa using this
      · intro _
        trivial
    | some j =>
      simp only [hfi, Option.map_some']
      constructor
      · intro htake
        exfalso
        rcases (List.take_eq_nil_iff).mp htake with h | h
        · omega
        · exact hne h
      · intro hdisj
        exfalso
        rcases hdisj with h | h
        · exact hind h
        · obtain ⟨x, hx, hpx⟩ := find_first_idx_mem _ _ j hfi
          have := h x (by simpa using hx)
          simp at hpx
          exact this hpx

/-- C2 amended witness: the counterexample path is rejected, and indeed it
contains an indirect step. -/
theorem prune_requireDefined_directOnly_iff_witness :
    (["B"] : List String) ≠ [] ∧ ([stepX, stepB] : LinkReferencePath) ≠ [] ∧
    (prune_link_ref_path cfgReqD [stepX, stepB] = [] ↔
      (∃ lr ∈ ([stepX, stepB] : LinkReferencePath), is_indirect lr = true) ∨
        ∀ lr ∈ ([stepX, stepB] : LinkReferencePath), witness_sym_name lr ∉ ["B"]) :=
  ⟨by decide, by decide,
    prune_requireDefined_directOnly_iff cfgReqD ["B"] rfl (by decide) rfl _ (by decide)⟩

/-- Whole-archive mode: a non-empty path is returned unchanged unless
`--direct-only` is set and some step's witness is indirect. -/
theorem prune_wholeArchive_eq (cfg : Config) (hmode : cfg.mode = .wholeArchive)
    (path : LinkReferencePath) (hne : path ≠ []) :
    prune_link_ref_path cfg path =
      if cfg.direct_only && path.any is_indirect then [] else path := by
  unfold prune_link_ref_path
  rw [hmode]
  simp [isEmpty_false_of_ne_nil hne]

/-! ### Association-list lemmas -/

theorem alookup_append {α β : Type} [DecidableEq α] (k : α) :
    ∀ (l es : List (α × β)), alookup k (l ++ es) =
      match alookup k l with
      | some v => some v
      | none => alookup k es := by
  intro l es
  induction l with
  | nil => rfl
  | cons p rest ih =>
    rcases p with ⟨a, b⟩
    simp only [List.cons_append, alookup]
    by_cases h : a = k
    · simp [h]
    · simp [h, ih]

theorem alookup_mem {α β : Type} [DecidableEq α] (k : α) :
    ∀ (l : List (α × β)) (v : β), alookup k l = some v → (k, v) ∈ l := by
  intro l
  induction l with
  | nil => intro v h; simp [alookup] at h
  | cons p rest ih =>
    rcases p with ⟨a, b⟩
    intro v h
    simp only [alookup] at h
    by_cases ha : a = k
    · rw [if_pos ha] at h
      injection h with h
      subst ha
      subst h
      exact List.mem_cons_self _ _
    · rw [if_neg ha] at h
      exact List.mem_cons_of_mem _ (ih v h)

theorem alookup_getD_empty {α β : Type} [DecidableEq α] (k : α) (es : List (α × List β))
    (h : ∀ p ∈ es, p.2 = []) : (alookup k es).getD [] = [] := by
  cases hk : alookup k es with
  | none => rfl
  | some v =>
    have := h (k, v) (alookup_mem k es v hk)
    simpa using this

theorem alookup_update_assoc_eq {α β : Type} [DecidableEq α] (k : α) (v : β) :
    ∀ l : List (α × β), alookup k l ≠ none → alookup k (update_assoc k v l) = some v := by
  intro l
  induction l with
  | nil => intro h; cases h rfl
  | cons p rest ih =>
    rcases p with ⟨a, b⟩
    intro h
    simp only [alookup, update_assoc] at *
    by_cases ha : a = k
    · simp [ha, alookup]
    · simp only [if_neg ha] at h
      simp [ha, alookup, ih h]

theorem alookup_update_assoc_ne {α β : Type} [DecidableEq α] (k k' : α) (v : β)
    (hne : k' ≠ k) : ∀ l : List (α × β), alookup k' (update_assoc k v l) = alookup k' l := by
  intro l
  induction l with
  | nil => rfl
  | cons p rest ih =>
    rcases p with ⟨a, b⟩
    simp only [update_assoc]
    by_cases ha : a = k
    · subst ha
      simp only [if_pos rfl, alookup]
      rw [if_neg (fun h => hne h.symm), if_neg (fun h => hne h.symm)]
    · simp only [if_neg ha, alookup, ih]

/-! ### Extension-relation lemmas -/

theorem refs_ext_refl (l : List (String × List SymbolReference)) :
    refs_empty_extension l l :=
  ⟨[], by simp, by simp⟩

theorem refs_ext_trans {a b c : List (String × List SymbolReference)}
    (h1 : refs_empty_extension a b) (h2 : refs_empty_extension b c) :
    refs_empty_extension a c := by
  obtain ⟨es1, he1, hv1⟩ := h1
  obtain ⟨es2, he2, hv2⟩ := h2
  refine ⟨es1 ++ es2, by rw [he2, he1, List.append_assoc], ?_⟩
  intro p hp
  rcases List.mem_append.mp hp with h | h
  · exact hv1 p h
  · exact hv2 p h

theorem dg_ext_refl (dg : List (Object × List (Section × List (String × DefinedSymbol)))) :
    dg_empty_extension dg dg :=
  fun o => ⟨[], by simp, by simp⟩

theorem dg_ext_trans {a b c : List (Object × List (Section × List (String × DefinedSymbol)))}
    (h1 : dg_empty_extension a b) (h2 : dg_empty_extension b c) :
    dg_empty_extension a c := by
  intro o
  obtain ⟨es1, he1, hv1⟩ := h1 o
  obtain ⟨es2, he2, hv2⟩ := h2 o
  refine ⟨es1 ++ es2, by rw [he2, he1, List.append_assoc], ?_⟩
  intro p hp
  rcases List.mem_append.mp hp with h | h
  · exact hv1 p h
  · exact hv2 p h

theorem EnvExt_refl (env : Env) : EnvExt env env :=
  ⟨rfl, rfl, refs_ext_refl _, dg_ext_refl _⟩

theorem EnvExt_trans {a b c : Env} (h1 : EnvExt a b) (h2 : EnvExt b c) : EnvExt a c :=
  ⟨h2.1.trans h1.1, h2.2.1.trans h1.2.1, refs_ext_trans h1.2.2.1 h2.2.2.1,
    dg_ext_trans h1.2.2.2 h2.2.2.2⟩

theorem refs_val_ext {env env' : Env} (h : refs_empty_extension env.refs env'.refs) :
    ∀ n, refs_val env' n = refs_val env n := by
  intro n
  obtain ⟨es, heq, hes⟩ := h
  unfold refs_val
  rw [heq, alookup_append]
  cases hk : alookup n env.refs with
  | some v => rfl
  | none =>
    simp only
    exact alookup_getD_empty n es hes

theorem flat_sections_append (l1 l2 : List (Section × List (String × DefinedSymbol))) :
    flat_sections (l1 ++ l2) = flat_sections l1 ++ flat_sections l2 := by
  induction l1 with
  | nil => rfl
  | cons p rest ih => simp [flat_sections, ih]

theorem flat_sections_empty (es : List (Section × List (String × DefinedSymbol)))
    (hes : ∀ p ∈ es, p.2 = []) : flat_sections es = [] := by
  induction es with
  | nil => rfl
  | cons p rest ih =>
    have hp := hes p (by simp)
    simp only [flat_sections, hp]
    exact ih (fun q hq => hes q (by simp [hq]))

theorem group_syms_val_ext {env env' : Env}
    (h : dg_empty_extension env.defs_grouped env'.defs_grouped) :
    ∀ g, group_syms_val env' g = group_syms_val env g := by
  intro g
  cases g with
  | obj o =>
    obtain ⟨es, heq, hes⟩ := h o
    simp only [group_syms_val, inner_obj]
    rw [heq, flat_sections_append, flat_sections_empty es hes, List.append_nil]
  | sec sc =>
    obtain ⟨es, heq, hes⟩ := h sc.obj
    simp only [group_syms_val, inner_obj]
    rw [heq, alookup_append]
    cases hk : alookup sc ((alookup sc.obj env.defs_grouped).getD []) with
    | some v => rfl
    | none =>
      simp only
      rw [alookup_getD_empty sc es hes]
      rfl

theorem refs_groups_append (cfg : Config) (l1 l2 : List (String × List SymbolReference)) :
    refs_groups cfg (l1 ++ l2) = refs_groups cfg l1 ++ refs_groups cfg l2 := by
  induction l1 with
  | nil => rfl
  | cons p rest ih => simp [refs_groups, ih]

theorem refs_groups_empty (cfg : Config) (es : List (String × List SymbolReference))
    (hes : ∀ p ∈ es, p.2 = []) : refs_groups cfg es = [] := by
  induction es with
  | nil => rfl
  | cons p rest ih =>
    have hp := hes p (by simp)
    simp only [refs_groups, hp]
    exact ih (fun q hq => hes q (by simp [hq]))

theorem env_groups_ext {env env' : Env} (cfg : Config) (h : EnvExt env env') :
    env_groups cfg env' = env_groups cfg env := by
  obtain ⟨es, heq, hes⟩ := h.2.2.1
  unfold env_groups
  rw [heq, refs_groups_append, refs_groups_empty cfg es hes, List.append_nil]

theorem remaining_ext {env env' : Env} (cfg : Config) (h : EnvExt env env')
    (hp : LinkReferencePath) : remaining cfg env' hp = remaining cfg env hp := by
  unfold remaining
  rw [env_groups_ext cfg h]

theorem WF_ext {cfg : Config} {env env' : Env} (hext : EnvExt env env') (hwf : WF cfg env) :
    WF cfg env' := by
  intro p hp r hr
  obtain ⟨es, heq, hes⟩ := hext.2.2.1
  rw [heq] at hp
  rcases List.mem_append.mp hp with h | h
  · rw [group_syms_val_ext hext.2.2.2]
    exact hwf p h r hr
  · rw [hes p h] at hr
    simp at hr

/-! ### Specifications of the stateful lookups -/

theorem refs_lookup_spec (env : Env) (n : String) :
    (refs_lookup env n).1 = refs_val env n ∧ EnvExt env (refs_lookup env n).2 := by
  unfold refs_lookup refs_val
  cases hk : alookup n env.refs with
  | some v => exact ⟨rfl, EnvExt_refl env⟩
  | none =>
    refine ⟨rfl, rfl, rfl, ⟨[(n, [])], rfl, by simp⟩, dg_ext_refl _⟩

theorem dg_ext_append_of_none {dg : List (Object × List (Section × List (String × DefinedSymbol)))}
    {o : Object} (inner : List (Section × List (String × DefinedSymbol)))
    (hinner : ∀ p ∈ inner, p.2 = []) :
    dg_empty_extension dg (dg ++ [(o, inner)]) := by
  intro o'
  rw [alookup_append]
  cases hk' : alookup o' dg with
  | some v => exact ⟨[], by simp, by simp⟩
  | none =>
    simp only [Option.getD_none, List.nil_append]
    by_cases ho : o = o'
    · subst ho
      refine ⟨inner, ?_, hinner⟩
      simp [alookup]
    · refine ⟨[], ?_, by simp⟩
      simp [alookup, ho]

theorem group_syms_spec (env : Env) (g : Group) :
    (group_syms env g).1 = group_syms_val env g ∧ EnvExt env (group_syms env g).2 := by
  cases g with
  | obj o =>
    cases hk : alookup o env.defs_grouped with
    | some inner =>
      simp only [group_syms, hk]
      exact ⟨by simp [group_syms_val, inner_obj, hk], EnvExt_refl env⟩
    | none =>
      simp only [group_syms, hk]
      constructor
      · simp [group_syms_val, inner_obj, hk, flat_sections]
      · exact ⟨rfl, rfl, refs_ext_refl _, dg_ext_append_of_none [] (by simp)⟩
  | sec sc =>
    cases hk1 : alookup sc.obj env.defs_grouped with
    | none =>
      simp only [group_syms, hk1]
      constructor
      · simp [group_syms_val, inner_obj, hk1, alookup]
      · exact ⟨rfl, rfl, refs_ext_refl _, dg_ext_append_of_none [(sc, [])] (by simp)⟩
    | some inner =>
      cases hk2 : alookup sc inner with
      | some syms =>
        simp only [group_syms, hk1, hk2]
        exact ⟨by simp [group_syms_val, inner_obj, hk1, hk2], EnvExt_refl env⟩
      | none =>
        simp only [group_syms, hk1, hk2]
        constructor
        · simp [group_syms_val, inner_obj, hk1, hk2]
        · refine ⟨rfl, rfl, refs_ext_refl _, ?_⟩
          intro o'
          by_cases ho : o' = sc.obj
          · subst ho
            show ∃ es, (alookup sc.obj
                (update_assoc sc.obj (inner ++ [(sc, [])]) env.defs_grouped)).getD []
                = (alookup sc.obj env.defs_grouped).getD [] ++ es ∧ ∀ p ∈ es, p.2 = []
            rw [alookup_update_assoc_eq sc.obj (inner ++ [(sc, [])]) env.defs_grouped
              (by rw [hk1]; simp)]
            rw [hk1]
            exact ⟨[(sc, [])], by simp, by simp⟩
          · show ∃ es, (alookup o'
                (update_assoc sc.obj (inner ++ [(sc, [])]) env.defs_grouped)).getD []
                = (alookup o' env.defs_grouped).getD [] ++ es ∧ ∀ p ∈ es, p.2 = []
            rw [alookup_update_assoc_ne sc.obj o' (inner ++ [(sc, [])]) ho]
            exact ⟨[], by simp, by simp⟩

/-! ### Sorting and grouping lemmas -/

theorem mem_insert_le {α : Type} (le : α → α → Bool) (x : α) :
    ∀ (l : List α) (a : α), a ∈ insert_le le x l ↔ a = x ∨ a ∈ l := by
  intro l
  induction l with
  | nil => intro a; simp [insert_le]
  | cons y ys ih =>
    intro a
    simp only [insert_le]
    by_cases h : le y x
    · rw [if_pos h]
      simp only [List.mem_cons, ih]
      tauto
    · rw [if_neg h]
      exact List.mem_cons

theorem mem_isort {α : Type} (le : α → α → Bool) (l : List α) (a : α) :
    a ∈ isort le l ↔ a ∈ l := by
  suffices h : ∀ (l : List α) (acc : List α),
      a ∈ l.foldl (fun acc x => insert_le le x acc) acc ↔ a ∈ acc ∨ a ∈ l by
    unfold isort
    rw [h l []]
    simp
  intro l
  induction l with
  | nil => intro acc; simp
  | cons x xs ih =>
    intro acc
    simp only [List.foldl_cons]
    rw [ih (insert_le le x acc), mem_insert_le]
    simp only [List.mem_cons]
    tauto

theorem isort_ne_nil {α : Type} (le : α → α → Bool) (l : List α) (h : l ≠ []) :
    isort le l ≠ [] := by
  cases l with
  | nil => cases h rfl
  | cons x xs =>
    intro hc
    have : x ∈ isort le (x :: xs) := (mem_isort le _ x).mpr (by simp)
    rw [hc] at this
    simp at this

theorem group_pairs_cons {α κ : Type} [DecidableEq κ] (key : α → κ) (a : α) (rest : List α) :
    group_pairs key (a :: rest) =
      match group_pairs key rest with
      | [] => [(key a, [a])]
      | (k, grp) :: tail =>
        if key a = k then (k, a :: grp) :: tail else (key a, [a]) :: (k, grp) :: tail := rfl

theorem group_pairs_mem {α κ : Type} [DecidableEq κ] (key : α → κ) :
    ∀ (l : List α) (g : κ) (grp : List α), (g, grp) ∈ group_pairs key l →
      grp ≠ [] ∧ ∀ r ∈ grp, key r = g ∧ r ∈ l := by
  intro l
  induction l with
  | nil => intro g grp h; simp [group_pairs] at h
  | cons a rest ih =>
    intro g grp h
    cases hgp : group_pairs key rest with
    | nil =>
      rw [group_pairs_cons, hgp] at h
      change (g, grp) ∈ [(key a, [a])] at h
      simp at h
      obtain ⟨rfl, rfl⟩ := h
      exact ⟨by simp, by simp⟩
    | cons p tail =>
      rcases p with ⟨k, kgrp⟩
      rw [group_pairs_cons, hgp] at h
      change (g, grp) ∈ (if key a = k then (k, a :: kgrp) :: tail
        else (key a, [a]) :: (k, kgrp) :: tail) at h
      by_cases hk : key a = k
      · rw [if_pos hk] at h
        rcases List.mem_cons.mp h with heq | hmem
        · injection heq with h1 h2
          subst h1
          subst h2
          constructor
          · simp
          · intro r hr
            rcases List.mem_cons.mp hr with rfl | hr
            · exact ⟨hk, by simp⟩
            · have := (ih g kgrp (by rw [hgp]; simp)).2 r hr
              exact ⟨this.1, by simp [this.2]⟩
        · have := ih g grp (by rw [hgp]; simp [hmem])
          exact ⟨this.1, fun r hr => ⟨(this.2 r hr).1, by simp [(this.2 r hr).2]⟩⟩
      · rw [if_neg hk] at h
        rcases List.mem_cons.mp h with heq | hmem
        · injection heq with h1 h2
          subst h1
          subst h2
          exact ⟨by simp, by
            intro r hr
            rcases List.mem_cons.mp hr with rfl | hr
            · exact ⟨rfl, by simp⟩
            · simp at hr⟩
        · have := ih g grp (by rw [hgp]; exact hmem)
          exact ⟨this.1, fun r hr => ⟨(this.2 r hr).1, by simp [(this.2 r hr).2]⟩⟩

theorem group_pairs_ne_nil {α κ : Type} [DecidableEq κ] (key : α → κ) (l : List α)
    (h : l ≠ []) : group_pairs key l ≠ [] := by
  cases l with
  | nil => cases h rfl
  | cons a rest =>
    simp only [group_pairs]
    cases group_pairs key rest with
    | nil => simp
    | cons p tail =>
      rcases p with ⟨k, kgrp⟩
      by_cases hk : key a = k
      · simp [hk]
      · simp [hk]

theorem grouped_refs_mem (cfg : Config) (l : List SymbolReference) :
    ∀ p ∈ grouped_refs cfg l, p.2 ≠ [] ∧ ∀ r ∈ p.2, group_of_ref cfg r = p.1 ∧ r ∈ l := by
  intro p hp
  rcases p with ⟨g, grp⟩
  have := group_pairs_mem (group_of_ref cfg) (isort (ref_le cfg) l) g grp hp
  exact ⟨this.1, fun r hr =>
    ⟨(this.2 r hr).1, (mem_isort (ref_le cfg) l r).mp (this.2 r hr).2⟩⟩

theorem grouped_refs_ne_nil (cfg : Config) (l : List SymbolReference) (h : l ≠ []) :
    grouped_refs cfg l ≠ [] :=
  group_pairs_ne_nil _ _ (isort_ne_nil _ _ h)

/-! ### Group membership in the environment and the recursion measure -/

theorem refs_groups_mem (cfg : Config) :
    ∀ (l : List (String × List SymbolReference)) (n : String) (rs : List SymbolReference)
      (r : SymbolReference), (n, rs) ∈ l → r ∈ rs →
      group_of_ref cfg r ∈ refs_groups cfg l := by
  intro l
  induction l with
  | nil => intro n rs r h _; simp at h
  | cons p rest ih =>
    intro n rs r hmem hr
    simp only [refs_groups, List.mem_append]
    rcases List.mem_cons.mp hmem with rfl | hmem
    · left
      exact List.mem_map_of_mem _ hr
    · right
      exact ih n rs r hmem hr

theorem group_mem_env_groups (cfg : Config) (env : Env) (n : String) (r : SymbolReference)
    (hr : r ∈ refs_val env n) : group_of_ref cfg r ∈ env_groups cfg env := by
  unfold refs_val at hr
  cases hk : alookup n env.refs with
  | none => rw [hk] at hr; simp at hr
  | some rs =>
    rw [hk] at hr
    simp only [Option.getD_some] at hr
    have hmem := alookup_mem n env.refs rs hk
    unfold env_groups
    rw [List.mem_dedup]
    exact refs_groups_mem cfg env.refs n rs r hmem hr

theorem length_filter_le_of_imp {α : Type} (p q : α → Bool)
    (himp : ∀ x, q x = true → p x = true) :
    ∀ l : List α, (l.filter q).length ≤ (l.filter p).length := by
  intro l
  induction l with
  | nil => simp
  | cons a rest ih =>
    simp only [List.filter_cons]
    by_cases hq : q a
    · rw [if_pos hq, if_pos (himp a hq)]
      simpa using ih
    · rw [if_neg hq]
      by_cases hp : p a
      · rw [if_pos hp]
        simp only [List.length_cons]
        omega
      · rw [if_neg hp]
        exact ih

theorem length_filter_lt_of_imp {α : Type} (p q : α → Bool)
    (himp : ∀ x, q x = true → p x = true) :
    ∀ (l : List α) (g : α), g ∈ l → p g = true → q g = false →
      (l.filter q).length < (l.filter p).length := by
  intro l
  induction l with
  | nil => intro g h; simp at h
  | cons a rest ih =>
    intro g hg hp hq
    simp only [List.filter_cons]
    rcases List.mem_cons.mp hg with rfl | hg
    · rw [if_pos hp, if_neg (by simp [hq])]
      have := length_filter_le_of_imp p q himp rest
      simp only [List.length_cons]
      omega
    · by_cases hqa : q a
      · rw [if_pos hqa, if_pos (himp a hqa)]
        simp only [List.length_cons]
        have := ih g hg hp hq
        omega
      · rw [if_neg hqa]
        by_cases hpa : p a
        · rw [if_pos hpa]
          have := ih g hg hp hq
          simp only [List.length_cons]
          omega
        · rw [if_neg hpa]
          exact ih g hg hp hq

theorem path_groups_append (hp : LinkReferencePath) (lr : LinkReference) :
    path_groups (hp ++ [lr]) = path_groups hp ++ [lr.group] := by
  simp [path_groups]

/-- Extending the visited prefix with a fresh group from the environment
strictly decreases the recursion budget. -/
theorem remaining_snoc_lt (cfg : Config) (env : Env) (hp : LinkReferencePath)
    (lr : LinkReference) (hg : lr.group ∈ env_groups cfg env)
    (hnot : lr.group ∉ path_groups hp) :
    remaining cfg env (hp ++ [lr]) < remaining cfg env hp := by
  unfold remaining
  refine length_filter_lt_of_imp _ _ ?_ (env_groups cfg env) lr.group hg ?_ ?_
  · intro x hx
    simp only [decide_eq_true_eq] at hx ⊢
    rw [path_groups_append] at hx
    intro hc
    exact hx (by simp [hc])
  · simpa using hnot
  · simp [path_groups_append]

/-! ### Unfolding equations for the walk -/

theorem walk_syms_nil {σ : Type}
    (wf : String → LinkReferencePath → Env → σ → Option (Env × σ × Bool))
    (hp : LinkReferencePath) (g : Group) (grefs : List SymbolReference) (env : Env) (s : σ) :
    walk_syms wf hp g grefs [] env s = some (env, s, true) := rfl

theorem walk_syms_cons {σ : Type}
    (wf : String → LinkReferencePath → Env → σ → Option (Env × σ × Bool))
    (hp : LinkReferencePath) (g : Group) (grefs : List SymbolReference)
    (sym : DefinedSymbol) (rest : List DefinedSymbol) (env : Env) (s : σ) :
    walk_syms wf hp g grefs (sym :: rest) env s =
      match wf sym.name (hp ++ [⟨g, grefs, select_witness grefs sym⟩]) env s with
      | none => none
      | some r => if r.2.2 then walk_syms wf hp g grefs rest r.1 r.2.1 else some r := rfl

theorem walk_groups_nil {σ : Type}
    (wf : String → LinkReferencePath → Env → σ → Option (Env × σ × Bool))
    (cfg : Config) (cb : σ → LinkReferencePath → σ × Bool) (hp : LinkReferencePath)
    (env : Env) (s : σ) :
    walk_groups wf cfg cb hp [] env s = some (env, s, true) := rfl

theorem walk_groups_cons {σ : Type}
    (wf : String → LinkReferencePath → Env → σ → Option (Env × σ × Bool))
    (cfg : Config) (cb : σ → LinkReferencePath → σ × Bool) (hp : LinkReferencePath)
    (g : Group) (grefs : List SymbolReference) (rest : List (Group × List SymbolReference))
    (env : Env) (s : σ) :
    walk_groups wf cfg cb hp ((g, grefs) :: rest) env s =
      if g ∈ path_groups hp then
        (if (prune_link_ref_path cfg hp).isEmpty then some (env, s, true)
         else some (env, (cb s (prune_link_ref_path cfg hp)).1,
           (cb s (prune_link_ref_path cfg hp)).2))
      else
        match walk_syms wf hp g grefs (group_syms env g).1 (group_syms env g).2 s with
        | none => none
        | some r => if r.2.2 then walk_groups wf cfg cb hp rest r.1 r.2.1 else some r := rfl

theorem walk_zero {σ : Type} (cfg : Config) (cb : σ → LinkReferencePath → σ × Bool)
    (n : String) (hp : LinkReferencePath) (env : Env) (s : σ) :
    walk_link_ref_paths cfg cb 0 n hp env s = none := rfl

theorem walk_succ {σ : Type} (cfg : Config) (cb : σ → LinkReferencePath → σ × Bool)
    (fuel : Nat) (n : String) (hp : LinkReferencePath) (env : Env) (s : σ) :
    walk_link_ref_paths cfg cb (fuel + 1) n hp env s =
      if (refs_lookup env n).1.isEmpty then
        (if (prune_link_ref_path cfg hp).isEmpty then some ((refs_lookup env n).2, s, true)
         else some ((refs_lookup env n).2, (cb s (prune_link_ref_path cfg hp)).1,
           (cb s (prune_link_ref_path cfg hp)).2))
      else
        walk_groups (fun n' hp' e st => walk_link_ref_paths cfg cb fuel n' hp' e st) cfg cb hp
          (grouped_refs cfg (refs_lookup env n).1) (refs_lookup env n).2 s := rfl

/-! ### The walk only extends the environment by empty default entries -/

theorem walk_syms_env {σ : Type}
    {wf : String → LinkReferencePath → Env → σ → Option (Env × σ × Bool)}
    (Henv : ∀ n hp env s env' s' c, wf n hp env s = some (env', s', c) → EnvExt env env')
    (hp : LinkReferencePath) (g : Group) (grefs : List SymbolReference) :
    ∀ (syms : List DefinedSymbol) (env : Env) (s : σ) (env' : Env) (s' : σ) (c : Bool),
      walk_syms wf hp g grefs syms env s = some (env', s', c) → EnvExt env env' := by
  intro syms
  induction syms with
  | nil =>
    intro env s env' s' c h
    rw [walk_syms_nil] at h
    simp only [Option.some.injEq, Prod.mk.injEq] at h
    obtain ⟨rfl, -, -⟩ := h
    exact EnvExt_refl env
  | cons sym rest ih =>
    intro env s env' s' c h
    rw [walk_syms_cons] at h
    cases hw : wf sym.name (hp ++ [⟨g, grefs, select_witness grefs sym⟩]) env s with
    | none => rw [hw] at h; exact absurd h (by simp)
    | some r =>
      rw [hw] at h
      change (if r.2.2 then walk_syms wf hp g grefs rest r.1 r.2.1 else some r)
        = some (env', s', c) at h
      have h1 : EnvExt env r.1 := Henv _ _ _ _ r.1 r.2.1 r.2.2 hw
      split at h
      · exact EnvExt_trans h1 (ih _ _ _ _ _ h)
      · simp only [Option.some.injEq] at h
        subst h
        exact h1

theorem walk_groups_env {σ : Type}
    {wf : String → LinkReferencePath → Env → σ → Option (Env × σ × Bool)}
    (Henv : ∀ n hp env s env' s' c, wf n hp env s = some (env', s', c) → EnvExt env env')
    (cfg : Config) (cb : σ → LinkReferencePath → σ × Bool) (hp : LinkReferencePath) :
    ∀ (gs : List (Group × List SymbolReference)) (env : Env) (s : σ)
      (env' : Env) (s' : σ) (c : Bool),
      walk_groups wf cfg cb hp gs env s = some (env', s', c) → EnvExt env env' := by
  intro gs
  induction gs with
  | nil =>
    intro env s env' s' c h
    rw [walk_groups_nil] at h
    simp only [Option.some.injEq, Prod.mk.injEq] at h
    obtain ⟨rfl, -, -⟩ := h
    exact EnvExt_refl env
  | cons p rest ih =>
    rcases p with ⟨g, grefs⟩
    intro env s env' s' c h
    rw [walk_groups_cons] at h
    split at h
    · split at h <;>
      · simp only [Option.some.injEq, Prod.mk.injEq] at h
        obtain ⟨rfl, -, -⟩ := h
        exact EnvExt_refl env
    · cases hw : walk_syms wf hp g grefs (group_syms env g).1 (group_syms env g).2 s with
      | none => rw [hw] at h; exact absurd h (by simp)
      | some r =>
        rw [hw] at h
        change (if r.2.2 then walk_groups wf cfg cb hp rest r.1 r.2.1 else some r)
          = some (env', s', c) at h
        have h1 : EnvExt env r.1 :=
          EnvExt_trans (group_syms_spec env g).2
            (walk_syms_env Henv hp g grefs _ _ _ _ _ _ hw)
        split at h
        · exact EnvExt_trans h1 (ih _ _ _ _ _ h)
        · simp only [Option.some.injEq] at h
          subst h
          exact h1

theorem walk_env {σ : Type} (cfg : Config) (cb : σ → LinkReferencePath → σ × Bool) :
    ∀ (fuel : Nat) (n : String) (hp : LinkReferencePath) (env : Env) (s : σ)
      (env' : Env) (s' : σ) (c : Bool),
      walk_link_ref_paths cfg cb fuel n hp env s = some (env', s', c) → EnvExt env env' := by
  intro fuel
  induction fuel with
  | zero =>
    intro n hp env s env' s' c h
    rw [walk_zero] at h
    exact absurd h (by simp)
  | succ fuel ih =>
    intro n hp env s env' s' c h
    rw [walk_succ] at h
    have hex := (refs_lookup_spec env n).2
    split at h
    · split at h <;>
      · simp only [Option.some.injEq, Prod.mk.injEq] at h
        obtain ⟨rfl, -, -⟩ := h
        exact hex
    · exact EnvExt_trans hex
        (walk_groups_env (fun n' hp' e st e' st' c' hh => ih n' hp' e st e' st' c' hh)
          cfg cb hp _ _ _ _ _ _ h)

/-! ### With enough fuel the walk never runs out: termination of the
recursion -/

theorem walk_syms_total {σ : Type}
    {wf : String → LinkReferencePath → Env → σ → Option (Env × σ × Bool)}
    (env₀ : Env) (hp : LinkReferencePath) (g : Group) (grefs : List SymbolReference)
    (Henv : ∀ n hp' env s env' s' c, wf n hp' env s = some (env', s', c) → EnvExt env env')
    (Hwf : ∀ (sym : DefinedSymbol) (lr : LinkReference) (env : Env) (s : σ),
      lr.group = g → EnvExt env₀ env → wf sym.name (hp ++ [lr]) env s ≠ none) :
    ∀ (syms : List DefinedSymbol) (env : Env) (s : σ), EnvExt env₀ env →
      walk_syms wf hp g grefs syms env s ≠ none := by
  intro syms
  induction syms with
  | nil =>
    intro env s hext
    rw [walk_syms_nil]
    simp
  | cons sym rest ih =>
    intro env s hext
    rw [walk_syms_cons]
    cases hw : wf sym.name (hp ++ [⟨g, grefs, select_witness grefs sym⟩]) env s with
    | none => exact absurd hw (Hwf sym _ env s rfl hext)
    | some r =>
      show (if r.2.2 then walk_syms wf hp g grefs rest r.1 r.2.1 else some r) ≠ none
      split
      · exact ih r.1 r.2.1 (EnvExt_trans hext (Henv _ _ _ _ r.1 r.2.1 r.2.2 hw))
      · simp

theorem walk_groups_total {σ : Type}
    {wf : String → LinkReferencePath → Env → σ → Option (Env × σ × Bool)}
    (env₀ : Env) (cfg : Config) (cb : σ → LinkReferencePath → σ × Bool)
    (hp : LinkReferencePath) (P : Group → Prop)
    (Henv : ∀ n hp' env s env' s' c, wf n hp' env s = some (env', s', c) → EnvExt env env')
    (Hwf : ∀ (sym : DefinedSymbol) (lr : LinkReference) (env : Env) (s : σ),
      P lr.group → lr.group ∉ path_groups hp → EnvExt env₀ env →
      wf sym.name (hp ++ [lr]) env s ≠ none) :
    ∀ (gs : List (Group × List SymbolReference)), (∀ p ∈ gs, P p.1) →
      ∀ (env : Env) (s : σ), EnvExt env₀ env →
      walk_groups wf cfg cb hp gs env s ≠ none := by
  intro gs
  induction gs with
  | nil =>
    intro _ env s hext
    rw [walk_groups_nil]
    simp
  | cons p rest ih =>
    rcases p with ⟨g, grefs⟩
    intro hPs env s hext
    rw [walk_groups_cons]
    split
    · split <;> simp
    · rename_i hg
      cases hw : walk_syms wf hp g grefs (group_syms env g).1 (group_syms env g).2 s with
      | none =>
        exfalso
        refine walk_syms_total env₀ hp g grefs Henv ?_
          (group_syms env g).1 (group_syms env g).2 s
          (EnvExt_trans hext (group_syms_spec env g).2) hw
        intro sym lr env₂ s₂ hlr hext₂
        exact Hwf sym lr env₂ s₂ (hlr ▸ hPs (g, grefs) (by simp))
          (by rw [hlr]; exact hg) hext₂
      | some r =>
        show (if r.2.2 then walk_groups wf cfg cb hp rest r.1 r.2.1 else some r) ≠ none
        split
        · refine ih (fun q hq => hPs q (by simp [hq])) r.1 r.2.1 ?_
          exact EnvExt_trans hext (EnvExt_trans (group_syms_spec env g).2
            (walk_syms_env Henv hp g grefs _ _ _ _ _ _ hw))
        · simp

theorem walk_total {σ : Type} (cfg : Config) (cb : σ → LinkReferencePath → σ × Bool) :
    ∀ (fuel : Nat) (n : String) (hp : LinkReferencePath) (env : Env) (s : σ),
      remaining cfg env hp < fuel →
      walk_link_ref_paths cfg cb fuel n hp env s ≠ none := by
  intro fuel
  induction fuel with
  | zero =>
    intro n hp env s hlt
    exact absurd hlt (by omega)
  | succ fuel ih =>
    intro n hp env s hlt
    rw [walk_succ]
    split
    · split <;> simp
    · rename_i hne
      refine walk_groups_total env cfg cb hp
        (fun g => g ∈ env_groups cfg env)
        (fun n' hp' e st e' st' c' hh => walk_env cfg cb fuel n' hp' e st e' st' c' hh)
        ?_ (grouped_refs cfg (refs_lookup env n).1) ?_
        (refs_lookup env n).2 s (refs_lookup_spec env n).2
      · intro sym lr env₂ s₂ hP hnot hext₂
        apply ih
        rw [remaining_ext cfg hext₂]
        have hlt2 := remaining_snoc_lt cfg env hp lr hP hnot
        have hle : remaining cfg env hp ≤ fuel := by omega
        omega
      · intro p hp'
        have hm := grouped_refs_mem cfg (refs_lookup env n).1 p hp'
        rcases p with ⟨g, grefs⟩
        cases hgr : grefs with
        | nil => exact absurd hgr hm.1
        | cons r rs =>
          have hr := hm.2 r (by rw [hgr]; simp)
          have hrv : r ∈ refs_val env n := by
            rw [← (refs_lookup_spec env n).1]
            exact hr.2
          exact hr.1 ▸ group_mem_env_groups cfg env n r hrv

/-! ### Propagation of callback-state properties through the walk -/

theorem ne_nil_of_isEmpty_false {α : Type} {l : List α} (h : l.isEmpty = false) : l ≠ [] := by
  cases l with
  | nil => simp at h
  | cons a rest => simp

theorem walk_syms_cbp {σ : Type}
    {wf : String → LinkReferencePath → Env → σ → Option (Env × σ × Bool)}
    (P : σ → σ → Bool → Prop)
    (hrefl : ∀ s, P s s true)
    (htrans : ∀ s₁ s₂ s₃ c, P s₁ s₂ true → P s₂ s₃ c → P s₁ s₃ c)
    (Hwf : ∀ n hp env s env' s' c, wf n hp env s = some (env', s', c) → P s s' c)
    (hp : LinkReferencePath) (g : Group) (grefs : List SymbolReference) :
    ∀ (syms : List DefinedSymbol) (env : Env) (s : σ) (env' : Env) (s' : σ) (c : Bool),
      walk_syms wf hp g grefs syms env s = some (env', s', c) → P s s' c := by
  intro syms
  induction syms with
  | nil =>
    intro env s env' s' c h
    rw [walk_syms_nil] at h
    simp only [Option.some.injEq, Prod.mk.injEq] at h
    obtain ⟨-, rfl, rfl⟩ := h
    exact hrefl s
  | cons sym rest ih =>
    intro env s env' s' c h
    rw [walk_syms_cons] at h
    cases hw : wf sym.name (hp ++ [⟨g, grefs, select_witness grefs sym⟩]) env s with
    | none => rw [hw] at h; exact absurd h (by simp)
    | some r =>
      rw [hw] at h
      change (if r.2.2 then walk_syms wf hp g grefs rest r.1 r.2.1 else some r)
        = some (env', s', c) at h
      have h1 : P s r.2.1 r.2.2 := Hwf _ _ _ _ r.1 r.2.1 r.2.2 hw
      split at h
      · rename_i hc
        rw [hc] at h1
        exact htrans _ _ _ _ h1 (ih _ _ _ _ _ h)
      · simp only [Option.some.injEq] at h
        subst h
        exact h1

theorem walk_groups_cbp {σ : Type}
    {wf : String → LinkReferencePath → Env → σ → Option (Env × σ × Bool)}
    (cfg : Config) (cb : σ → LinkReferencePath → σ × Bool)
    (P : σ → σ → Bool → Prop)
    (hrefl : ∀ s, P s s true)
    (htrans : ∀ s₁ s₂ s₃ c, P s₁ s₂ true → P s₂ s₃ c → P s₁ s₃ c)
    (hcb : ∀ (s : σ) (p : LinkReferencePath), p ≠ [] → P s (cb s p).1 (cb s p).2)
    (Hwf : ∀ n hp env s env' s' c, wf n hp env s = some (env', s', c) → P s s' c)
    (hp : LinkReferencePath) :
    ∀ (gs : List (Group × List SymbolReference)) (env : Env) (s : σ)
      (env' : Env) (s' : σ) (c : Bool),
      walk_groups wf cfg cb hp gs env s = some (env', s', c) → P s s' c := by
  intro gs
  induction gs with
  | nil =>
    intro env s env' s' c h
    rw [walk_groups_nil] at h
    simp only [Option.some.injEq, Prod.mk.injEq] at h
    obtain ⟨-, rfl, rfl⟩ := h
    exact hrefl s
  | cons p rest ih =>
    rcases p with ⟨g, grefs⟩
    intro env s env' s' c h
    rw [walk_groups_cons] at h
    split at h
    · split at h
      · simp only [Option.some.injEq, Prod.mk.injEq] at h
        obtain ⟨-, rfl, rfl⟩ := h
        exact hrefl s
      · rename_i hprn
        simp only [Option.some.injEq, Prod.mk.injEq] at h
        obtain ⟨-, rfl, rfl⟩ := h
        exact hcb s _ (ne_nil_of_isEmpty_false (by simpa using hprn))
    · cases hw : walk_syms wf hp g grefs (group_syms env g).1 (group_syms env g).2 s with
      | none => rw [hw] at h; exact absurd h (by simp)
      | some r =>
        rw [hw] at h
        change (if r.2.2 then walk_groups wf cfg cb hp rest r.1 r.2.1 else some r)
          = some (env', s', c) at h
        have h1 : P s r.2.1 r.2.2 :=
          walk_syms_cbp P hrefl htrans Hwf hp g grefs _ _ _ _ _ _ hw
        split at h
        · rename_i hc
          rw [hc] at h1
          exact htrans _ _ _ _ h1 (ih _ _ _ _ _ h)
        · simp only [Option.some.injEq] at h
          subst h
          exact h1

theorem walk_cbp {σ : Type} (cfg : Config) (cb : σ → LinkReferencePath → σ × Bool)
    (P : σ → σ → Bool → Prop)
    (hrefl : ∀ s, P s s true)
    (htrans : ∀ s₁ s₂ s₃ c, P s₁ s₂ true → P s₂ s₃ c → P s₁ s₃ c)
    (hcb : ∀ (s : σ) (p : LinkReferencePath), p ≠ [] → P s (cb s p).1 (cb s p).2) :
    ∀ (fuel : Nat) (n : String) (hp : LinkReferencePath) (env : Env) (s : σ)
      (env' : Env) (s' : σ) (c : Bool),
      walk_link_ref_paths cfg cb fuel n hp env s = some (env', s', c) → P s s' c := by
  intro fuel
  induction fuel with
  | zero =>
    intro n hp env s env' s' c h
    rw [walk_zero] at h
    exact absurd h (by simp)
  | succ fuel ih =>
    intro n hp env s env' s' c h
    rw [walk_succ] at h
    split at h
    · split at h
      · simp only [Option.some.injEq, Prod.mk.injEq] at h
        obtain ⟨-, rfl, rfl⟩ := h
        exact hrefl s
      · rename_i hprn
        simp only [Option.some.injEq, Prod.mk.injEq] at h
        obtain ⟨-, rfl, rfl⟩ := h
        exact hcb s _ (ne_nil_of_isEmpty_false (by simpa using hprn))
    · exact walk_groups_cbp cfg cb P hrefl htrans hcb
        (fun n' hp' e st e' st' c' hh => ih n' hp' e st e' st' c' hh) hp _ _ _ _ _ _ h

/-! ### C4: termination and cycle handling -/

/-- C4: the explorer terminates on every finite reference graph, cyclic ones
included.  First conjunct: with fuel exceeding the number of environment
groups not yet on the visited prefix — a bound on the recursion depth, since
every recursive call pushes a fresh group onto the prefix — the fuelled walk
never exhausts its fuel.  Second conjunct: when the current group already
occurs in the visited path prefix, the group loop does not recurse (the
result does not involve `wf`), instead applies the pruner to the current
prefix, invokes the callback on the truncated path if it is accepted, and
returns from the current frame without visiting the remaining sibling groups
(the result is independent of them). -/
theorem walk_terminates_and_stops_at_cycles :
    (∀ (σ : Type) (cb : σ → LinkReferencePath → σ × Bool) (cfg : Config) (fuel : Nat)
      (n : String) (hp : LinkReferencePath) (env : Env) (s : σ),
      remaining cfg env hp < fuel →
      walk_link_ref_paths cfg cb fuel n hp env s ≠ none) ∧
    (∀ (σ : Type) (wf : String → LinkReferencePath → Env → σ → Option (Env × σ × Bool))
      (cfg : Config) (cb : σ → LinkReferencePath → σ × Bool) (hp : LinkReferencePath)
      (g : Group) (grefs : List SymbolReference)
      (rest rest' : List (Group × List SymbolReference)) (env : Env) (s : σ),
      g ∈ path_groups hp →
      walk_groups wf cfg cb hp ((g, grefs) :: rest) env s =
        (if (prune_link_ref_path cfg hp).isEmpty then some (env, s, true)
         else some (env, (cb s (prune_link_ref_path cfg hp)).1,
           (cb s (prune_link_ref_path cfg hp)).2)) ∧
      walk_groups wf cfg cb hp ((g, grefs) :: rest) env s =
        walk_groups wf cfg cb hp ((g, grefs) :: rest') env s) := by
  constructor
  · intro σ cb cfg fuel n hp env s hlt
    exact walk_total cfg cb fuel n hp env s hlt
  · intro σ wf cfg cb hp g grefs rest rest' env s hg
    constructor
    · rw [walk_groups_cons, if_pos hg]
    · rw [walk_groups_cons, if_pos hg, walk_groups_cons, if_pos hg]

/-- C4 witness: on the cyclic two-object graph `x ↔ y`, fuel `3` (one more
than the two groups) suffices from a clean start, and a concrete cycle hit
returns the pruned prefix without recursing or visiting siblings. -/
theorem walk_terminates_and_stops_at_cycles_witness :
    (remaining cfgWA envCyc [] < 3 ∧
      walk_link_ref_paths cfgWA count_cb 3 "x" [] envCyc 0 ≠ none) ∧
    ((Group.obj oX) ∈ path_groups [stepX] ∧
      walk_groups (fun _ _ e st => some (e, st, true)) cfgWA count_cb [stepX]
          ((Group.obj oX, []) :: [(Group.obj oY, [rXy])]) envCyc 0 =
        (if (prune_link_ref_path cfgWA [stepX]).isEmpty then some (envCyc, 0, true)
         else some (envCyc, (count_cb 0 (prune_link_ref_path cfgWA [stepX])).1,
           (count_cb 0 (prune_link_ref_path cfgWA [stepX])).2)) ∧
      walk_groups (fun _ _ e st => some (e, st, true)) cfgWA count_cb [stepX]
          ((Group.obj oX, []) :: [(Group.obj oY, [rXy])]) envCyc 0 =
        walk_groups (fun _ _ e st => some (e, st, true)) cfgWA count_cb [stepX]
          ((Group.obj oX, []) :: []) envCyc 0) :=
  ⟨⟨by decide,
    walk_terminates_and_stops_at_cycles.1 Nat count_cb cfgWA 3 "x" [] envCyc 0 (by decide)⟩,
   by decide,
   walk_terminates_and_stops_at_cycles.2 Nat (fun _ _ e st => some (e, st, true)) cfgWA count_cb
     [stepX] (Group.obj oX) [] [(Group.obj oY, [rXy])] [] envCyc 0 (by decide)⟩

/-! ### C5: cancellation -/

theorem StopLog_nil : StopLog [] true := Or.inl ⟨rfl, by simp⟩

theorem StopLog_single (p : LinkReferencePath) (c : Bool) : StopLog [(p, c)] c := by
  cases c with
  | true => exact Or.inl ⟨rfl, by simp⟩
  | false => exact Or.inr ⟨rfl, [], p, by simp, by simp⟩

theorem StopLog_append {d₁ d₂ : List (LinkReferencePath × Bool)} {c : Bool}
    (h1 : StopLog d₁ true) (h2 : StopLog d₂ c) : StopLog (d₁ ++ d₂) c := by
  rcases h1 with ⟨-, h1⟩ | ⟨hc, -⟩
  · rcases h2 with ⟨hc, h2⟩ | ⟨hc, pre, p, heq, hpre⟩
    · refine Or.inl ⟨hc, ?_⟩
      intro e he
      rcases List.mem_append.mp he with h | h
      · exact h1 e h
      · exact h2 e h
    · refine Or.inr ⟨hc, d₁ ++ pre, p, by rw [heq, List.append_assoc], ?_⟩
      intro e he
      rcases List.mem_append.mp he with h | h
      · exact h1 e h
      · exact hpre e h
  · simp at hc

theorem stop_log_extends_refl (log : List (LinkReferencePath × Bool)) :
    stop_log_extends log log true :=
  ⟨[], by simp, StopLog_nil⟩

theorem stop_log_extends_trans {l₁ l₂ l₃ : List (LinkReferencePath × Bool)} {c : Bool}
    (h1 : stop_log_extends l₁ l₂ true) (h2 : stop_log_extends l₂ l₃ c) :
    stop_log_extends l₁ l₃ c := by
  obtain ⟨d₁, he1, hs1⟩ := h1
  obtain ⟨d₂, he2, hs2⟩ := h2
  exact ⟨d₁ ++ d₂, by rw [he2, he1, List.append_assoc], StopLog_append hs1 hs2⟩

/-- C5: cancellation propagates.  First conjunct, for an arbitrary callback
instrumented with an invocation log: in any completed walk the log grows by a
fragment in which every invocation before the last returned `true` (once a
callback returns `false`, it is never invoked again) and the walk's own
result flag is `false` exactly when the final logged invocation returned
`false` (the stop signal propagates through every pending recursive frame to
the top-level call).  Second conjunct, for the reporter's deduplicating
callback under `--first-only`: at most one new path is ever reported, and the
top-level result is `true` iff nothing new was reported — i.e. after the
single acceptance the whole search stops. -/
theorem walk_cancellation :
    (∀ (σ : Type) (cb : σ → LinkReferencePath → σ × Bool) (cfg : Config) (fuel : Nat)
      (n : String) (hp : LinkReferencePath) (env : Env) (s : σ)
      (log : List (LinkReferencePath × Bool)) (env' : Env) (s' : σ)
      (log' : List (LinkReferencePath × Bool)) (c : Bool),
      walk_link_ref_paths cfg (log_cb cb) fuel n hp env (s, log) = some (env', (s', log'), c) →
      stop_log_extends log log' c) ∧
    (∀ (cfg : Config) (fuel : Nat) (n : String) (hp : LinkReferencePath) (env : Env)
      (seen : List LinkReferencePath) (env' : Env) (seen' : List LinkReferencePath) (c : Bool),
      walk_link_ref_paths cfg (dedup_cb true) fuel n hp env seen = some (env', seen', c) →
      seen'.length ≤ seen.length + 1 ∧ (c = true ↔ seen' = seen)) := by
  constructor
  · intro σ cb cfg fuel n hp env s log env' s' log' c h
    refine walk_cbp cfg (log_cb cb)
      (fun a b c' => stop_log_extends a.2 b.2 c') ?_ ?_ ?_
      fuel n hp env (s, log) env' (s', log') c h
    · intro a
      exact stop_log_extends_refl a.2
    · intro a b d c' h1 h2
      exact stop_log_extends_trans h1 h2
    · intro a p hp'
      exact ⟨[(p, (cb a.1 p).2)], rfl, StopLog_single p (cb a.1 p).2⟩
  · intro cfg fuel n hp env seen env' seen' c h
    refine walk_cbp cfg (dedup_cb true)
      (fun a b c' => b.length ≤ a.length + 1 ∧ (c' = true ↔ b = a)) ?_ ?_ ?_
      fuel n hp env seen env' seen' c h
    · intro a
      exact ⟨by omega, by simp⟩
    · intro s₁ s₂ s₃ c' h1 h2
      have hs : s₂ = s₁ := h1.2.mp rfl
      subst hs
      exact h2
    · intro a p hp'
      unfold dedup_cb
      by_cases hmem : p ∈ a
      · rw [if_pos hmem]
        exact ⟨Nat.le_succ _, by simp⟩
      · rw [if_neg hmem]
        constructor
        · simp
        · simp only [Bool.not_true, Bool.false_eq_true, false_iff]
          intro hc
          have hlen : (a ++ [p]).length = a.length := by rw [hc]
          simp at hlen

/-- C5 witness: a concrete run with the logging callback (one invocation,
which returned `true`, flag `true`), and a concrete `--first-only` run (one
path reported, search stopped with `false`). -/
theorem walk_cancellation_witness :
    stop_log_extends [] [([stepA], true)] true ∧
    (([[stepA]] : List LinkReferencePath).length ≤ ([] : List LinkReferencePath).length + 1 ∧
      (false = true ↔ ([[stepA]] : List LinkReferencePath) = [])) :=
  ⟨walk_cancellation.1 Nat count_cb cfgWA 3 "b" [] envA 0 [] envA' 1 [([stepA], true)] true
     (by decide),
   walk_cancellation.2 cfgWA 3 "b" [] envA [] envA' [[stepA]] false (by decide)⟩

/-! ### C3: whole-archive acceptance -/

theorem dedup_cb_fst_ne_nil (f : Bool) (seen : List LinkReferencePath)
    (p : LinkReferencePath) (h : p ≠ []) : (dedup_cb f seen p).1 ≠ [] := by
  unfold dedup_cb
  split
  · rename_i hmem
    exact List.ne_nil_of_mem hmem
  · simp

theorem WF_mem_group_syms {cfg : Config} {env : Env} (hwf : WF cfg env) (n : String)
    (r : SymbolReference) (hr : r ∈ refs_val env n) :
    r.referencing_sym ∈ group_syms_val env (group_of_ref cfg r) := by
  unfold refs_val at hr
  cases hk : alookup n env.refs with
  | none => rw [hk] at hr; simp at hr
  | some rs =>
    rw [hk] at hr
    simp only [Option.getD_some] at hr
    exact hwf (n, rs) (alookup_mem n env.refs rs hk) r hr

theorem walk_preserves_ne_nil (cfg : Config) (f : Bool) :
    ∀ (fuel : Nat) (n : String) (hp : LinkReferencePath) (env : Env)
      (seen : List LinkReferencePath) (env' : Env) (seen' : List LinkReferencePath) (c : Bool),
      walk_link_ref_paths cfg (dedup_cb f) fuel n hp env seen = some (env', seen', c) →
      seen ≠ [] → seen' ≠ [] := by
  intro fuel n hp env seen env' seen' c h
  exact walk_cbp cfg (dedup_cb f) (fun a b _ => a ≠ [] → b ≠ [])
    (fun s hs => hs) (fun s₁ s₂ s₃ c' h1 h2 h3 => h2 (h1 h3))
    (fun s p hps _ => dedup_cb_fst_ne_nil f s p hps) fuel n hp env seen env' seen' c h

/-- Convenient totality form for the nested calls of a walk at one more unit
of fuel. -/
theorem walk_total_from {σ : Type} (cfg : Config) (cb : σ → LinkReferencePath → σ × Bool)
    (env : Env) (fuel : Nat) (hp : LinkReferencePath)
    (hlt : remaining cfg env hp < fuel + 1) :
    ∀ (nm : String) (lr : LinkReference) (env₂ : Env) (s : σ),
      lr.group ∈ env_groups cfg env → lr.group ∉ path_groups hp → EnvExt env env₂ →
      walk_link_ref_paths cfg cb fuel nm (hp ++ [lr]) env₂ s ≠ none := by
  intro nm lr env₂ s hgmem hnot hext
  apply walk_total
  rw [remaining_ext cfg hext]
  have := remaining_snoc_lt cfg env hp lr hgmem hnot
  omega

/-- Under whole-archive mode with direct-only off, every completed branch of
the walk reports at least one path as soon as the candidate prefix is
non-empty or the visited symbol has incoming references. -/
theorem walk_reports_aux (cfg : Config) (f : Bool)
    (hmode : cfg.mode = .wholeArchive) (hdo : cfg.direct_only = false) :
    ∀ (fuel : Nat) (n : String) (hp : LinkReferencePath) (env : Env)
      (seen : List LinkReferencePath),
      WF cfg env → (hp ≠ [] ∨ refs_val env n ≠ []) → remaining cfg env hp < fuel →
      ∃ env' seen' c,
        walk_link_ref_paths cfg (dedup_cb f) fuel n hp env seen = some (env', seen', c) ∧
        seen' ≠ [] := by
  intro fuel
  induction fuel with
  | zero =>
    intro n hp env seen _ _ hlt
    exact absurd hlt (by omega)
  | succ fuel ih =>
    intro n hp env seen hwf hor hlt
    have hlk1 := (refs_lookup_spec env n).1
    have hlkE := (refs_lookup_spec env n).2
    rw [walk_succ]
    by_cases hemp : (refs_lookup env n).1.isEmpty
    · have hne : hp ≠ [] := by
        rcases hor with h | h
        · exact h
        · exfalso
          apply h
          rw [← hlk1]
          cases hl : (refs_lookup env n).1 with
          | nil => rfl
          | cons a rest => rw [hl] at hemp; simp at hemp
      have hprune : prune_link_ref_path cfg hp = hp := by
        rw [prune_wholeArchive_eq cfg hmode hp hne, hdo]
        simp
      rw [if_pos hemp, hprune, isEmpty_false_of_ne_nil hne]
      simp only [Bool.false_eq_true, if_false]
      exact ⟨_, _, _, rfl, dedup_cb_fst_ne_nil f seen hp hne⟩
    · rw [if_neg hemp]
      have hlkne : (refs_lookup env n).1 ≠ [] := by
        intro hc
        rw [hc] at hemp
        exact hemp rfl
      have hPs : ∀ p ∈ grouped_refs cfg (refs_lookup env n).1, p.1 ∈ env_groups cfg env := by
        intro p hpmem
        have hm := grouped_refs_mem cfg (refs_lookup env n).1 p hpmem
        cases hgr : p.2 with
        | nil => exact absurd hgr hm.1
        | cons r rs =>
          have hr := hm.2 r (by rw [hgr]; simp)
          have hrv : r ∈ refs_val env n := by rw [← hlk1]; exact hr.2
          exact hr.1 ▸ group_mem_env_groups cfg env n r hrv
      cases hgs : grouped_refs cfg (refs_lookup env n).1 with
      | nil => exact absurd hgs (grouped_refs_ne_nil cfg _ hlkne)
      | cons q rest =>
        rcases q with ⟨g, grefs⟩
        rw [walk_groups_cons]
        by_cases hcyc : g ∈ path_groups hp
        · have hne : hp ≠ [] := by
            intro hc
            rw [hc] at hcyc
            simp [path_groups] at hcyc
          have hprune : prune_link_ref_path cfg hp = hp := by
            rw [prune_wholeArchive_eq cfg hmode hp hne, hdo]
            simp
          rw [if_pos hcyc, hprune, isEmpty_false_of_ne_nil hne]
          simp only [Bool.false_eq_true, if_false]
          exact ⟨_, _, _, rfl, dedup_cb_fst_ne_nil f seen hp hne⟩
        · rw [if_neg hcyc]
          have hgmem : g ∈ env_groups cfg env := hPs (g, grefs) (by rw [hgs]; simp)
          have hgm := grouped_refs_mem cfg (refs_lookup env n).1 (g, grefs) (by rw [hgs]; simp)
          have hsyms1 := (group_syms_spec (refs_lookup env n).2 g).1
          have hsymsE := (group_syms_spec (refs_lookup env n).2 g).2
          have hEnv2 : EnvExt env (group_syms (refs_lookup env n).2 g).2 :=
            EnvExt_trans hlkE hsymsE
          have hsne : (group_syms (refs_lookup env n).2 g).1 ≠ [] := by
            rw [hsyms1, group_syms_val_ext hlkE.2.2.2]
            cases hgr : grefs with
            | nil => exact absurd hgr hgm.1
            | cons r rs =>
              have hr := hgm.2 r (by rw [hgr]; simp)
              have hrv : r ∈ refs_val env n := by rw [← hlk1]; exact hr.2
              have hmem := WF_mem_group_syms hwf n r hrv
              rw [hr.1] at hmem
              exact List.ne_nil_of_mem hmem
          -- the walk_syms call returns some result with a non-empty report list
          have hHenv : ∀ (n' : String) (hp' : LinkReferencePath) (e : Env)
              (st : List LinkReferencePath) (e' : Env) (st' : List LinkReferencePath)
              (c' : Bool),
              walk_link_ref_paths cfg (dedup_cb f) fuel n' hp' e st = some (e', st', c') →
              EnvExt e e' :=
            fun n' hp' e st e' st' c' hh => walk_env cfg (dedup_cb f) fuel n' hp' e st e' st' c' hh
          have hHne : ∀ (n' : String) (hp' : LinkReferencePath) (e : Env)
              (st : List LinkReferencePath) (e' : Env) (st' : List LinkReferencePath)
              (c' : Bool),
              walk_link_ref_paths cfg (dedup_cb f) fuel n' hp' e st = some (e', st', c') →
              st ≠ [] → st' ≠ [] :=
            fun n' hp' e st e' st' c' hh => walk_preserves_ne_nil cfg f fuel n' hp' e st e' st' c' hh
          have hsome : ∃ rs, walk_syms
              (fun n' hp' e st => walk_link_ref_paths cfg (dedup_cb f) fuel n' hp' e st)
              hp g grefs (group_syms (refs_lookup env n).2 g).1
              (group_syms (refs_lookup env n).2 g).2 seen = some rs ∧ rs.2.1 ≠ [] := by
            cases hsy : (group_syms (refs_lookup env n).2 g).1 with
            | nil => exact absurd hsy hsne
            | cons sym srest =>
              rw [walk_syms_cons]
              obtain ⟨env₃, seen₁, c₁, hw1, hne₁⟩ :=
                ih sym.name (hp ++ [⟨g, grefs, select_witness grefs sym⟩])
                  (group_syms (refs_lookup env n).2 g).2 seen
                  (WF_ext hEnv2 hwf) (Or.inl (by simp))
                  (by
                    rw [remaining_ext cfg hEnv2]
                    have := remaining_snoc_lt cfg env hp
                      ⟨g, grefs, select_witness grefs sym⟩ hgmem hcyc
                    omega)
              rw [hw1]
              show ∃ rs, (if c₁ then walk_syms
                  (fun n' hp' e st => walk_link_ref_paths cfg (dedup_cb f) fuel n' hp' e st)
                  hp g grefs srest env₃ seen₁ else some (env₃, seen₁, c₁)) = some rs ∧
                  rs.2.1 ≠ []
              cases c₁ with
              | false => exact ⟨(env₃, seen₁, false), by simp, hne₁⟩
              | true =>
                have hEnv3 : EnvExt env env₃ :=
                  EnvExt_trans hEnv2 (walk_env cfg (dedup_cb f) fuel _ _ _ _ _ _ _ hw1)
                have hnn := walk_syms_total env hp g grefs hHenv
                  (fun sym' lr e st hlr hext =>
                    walk_total_from cfg (dedup_cb f) env fuel hp hlt sym'.name lr e st
                      (hlr ▸ hgmem) (hlr ▸ hcyc) hext)
                  srest env₃ seen₁ hEnv3
                cases hrs : walk_syms
                    (fun n' hp' e st => walk_link_ref_paths cfg (dedup_cb f) fuel n' hp' e st)
                    hp g grefs srest env₃ seen₁ with
                | none => exact absurd hrs hnn
                | some rs =>
                  refine ⟨rs, by simp, ?_⟩
                  exact walk_syms_cbp (fun a b _ => a ≠ [] → b ≠ [])
                    (fun s hs => hs) (fun s₁ s₂ s₃ c' h1 h2 h3 => h2 (h1 h3))
                    hHne hp g grefs srest env₃ seen₁ rs.1 rs.2.1 rs.2.2 (by
                      rw [hrs]) hne₁
          obtain ⟨rs, hrs, hrsne⟩ := hsome
          rw [hrs]
          show ∃ env' seen' c, (if rs.2.2 then walk_groups
              (fun n' hp' e st => walk_link_ref_paths cfg (dedup_cb f) fuel n' hp' e st)
              cfg (dedup_cb f) hp rest rs.1 rs.2.1 else some rs) = some (env', seen', c) ∧
              seen' ≠ []
          cases hc : rs.2.2 with
          | false =>
            simp only [Bool.false_eq_true, if_false]
            exact ⟨rs.1, rs.2.1, rs.2.2, by simp, hrsne⟩
          | true =>
            simp only [if_true]
            have hEnvrs : EnvExt env rs.1 := by
              refine EnvExt_trans hEnv2 ?_
              exact walk_syms_env hHenv hp g grefs _ _ _ rs.1 rs.2.1 rs.2.2 (by rw [hrs])
            have hnn := walk_groups_total env cfg (dedup_cb f) hp
              (fun gr => gr ∈ env_groups cfg env) hHenv
              (fun sym' lr e st hP hnot hext =>
                walk_total_from cfg (dedup_cb f) env fuel hp hlt sym'.name lr e st hP hnot hext)
              rest (fun p hpm => hPs p (by rw [hgs]; simp [hpm])) rs.1 rs.2.1 hEnvrs
            cases hfin : walk_groups
                (fun n' hp' e st => walk_link_ref_paths cfg (dedup_cb f) fuel n' hp' e st)
                cfg (dedup_cb f) hp rest rs.1 rs.2.1 with
            | none => exact absurd hfin hnn
            | some fin =>
              refine ⟨fin.1, fin.2.1, fin.2.2, by simp, ?_⟩
              exact walk_groups_cbp cfg (dedup_cb f) (fun a b _ => a ≠ [] → b ≠ [])
                (fun s hs => hs) (fun s₁ s₂ s₃ c' h1 h2 h3 => h2 (h1 h3))
                (fun s p hps _ => dedup_cb_fst_ne_nil f s p hps)
                hHne hp rest rs.1 rs.2.1 fin.1 fin.2.1 fin.2.2 (by rw [hfin]) hrsne

/-- C3: in whole-archive mode the pruner returns every non-empty input path
unchanged, except that with strict direct-only it rejects exactly when some
step's witness is indirect (first conjunct).  Consequently (second conjunct),
with direct-only off, a traced symbol with any incoming reference chain has
at least one accepted path: the walk run by the reporter ends with a
non-empty report list. -/
theorem wholeArchive_prune_and_acceptance (cfg : Config) (hmode : cfg.mode = .wholeArchive) :
    (∀ path : LinkReferencePath, path ≠ [] →
      prune_link_ref_path cfg path =
        if cfg.direct_only && path.any is_indirect then [] else path) ∧
    (cfg.direct_only = false →
      ∀ (fuel : Nat) (env : Env) (n : String), WF cfg env → refs_val env n ≠ [] →
        remaining cfg env [] < fuel → walk_reports_a_path cfg fuel env n) := by
  constructor
  · exact fun path hne => prune_wholeArchive_eq cfg hmode path hne
  · intro hdo fuel env n hwf hne hlt
    unfold walk_reports_a_path
    exact walk_reports_aux cfg cfg.first_only hmode hdo fuel n [] env [] hwf (Or.inr hne) hlt

/-- C3 witness: the pruner keeps a concrete one-step path unchanged, and the
symbol `b` — referenced by `a` in `envA` — gets at least one reported
path. -/
theorem wholeArchive_prune_and_acceptance_witness :
    (prune_link_ref_path cfgWA [stepA] =
      if cfgWA.direct_only && ([stepA] : LinkReferencePath).any is_indirect then []
      else [stepA]) ∧
    walk_reports_a_path cfgWA 3 envA "b" :=
  ⟨(wholeArchive_prune_and_acceptance cfgWA rfl).1 [stepA] (by decide),
   (wholeArchive_prune_and_acceptance cfgWA rfl).2 rfl 3 envA "b" (by decide) (by decide)
     (by decide)⟩

/-! ### C7: what the search phase does to the global tables -/

/-- C7 counterexample: walking the traced symbol `b` in `envA` evaluates
`refs["a"]` for the leaf symbol `a`; the `defaultdict` inserts an empty
entry, so after the walk the reference index has gained the key `"a"` — an
entry was added, contradicting the claim that no entry is added. -/
theorem walk_adds_refs_entry_counterexample :
    walk_link_ref_paths cfgWA count_cb 3 "b" [] envA 0 = some (envA', 1, true) ∧
    envA'.refs ≠ envA.refs ∧
    alookup "a" envA.refs = none ∧ alookup "a" envA'.refs = some [] := by
  refine ⟨by decide, by decide, by decide, by decide⟩

/-- C7 (amended): any completed walk leaves `defs` and `global_defs`
untouched, extends `refs` and the grouped-definition table only by empty
default entries for looked-up missing keys, and leaves every lookup value
unchanged. -/
theorem walk_frame {σ : Type} (cfg : Config) (cb : σ → LinkReferencePath → σ × Bool)
    (fuel : Nat) (n : String) (hp : LinkReferencePath) (env : Env) (s : σ)
    (env' : Env) (s' : σ) (c : Bool)
    (h : walk_link_ref_paths cfg cb fuel n hp env s = some (env', s', c)) :
    env'.defs = env.defs ∧ env'.global_defs = env.global_defs ∧
    refs_empty_extension env.refs env'.refs ∧
    dg_empty_extension env.defs_grouped env'.defs_grouped ∧
    (∀ m, refs_val env' m = refs_val env m) ∧
    (∀ g, group_syms_val env' g = group_syms_val env g) := by
  have hext := walk_env cfg cb fuel n hp env s env' s' c h
  exact ⟨hext.1, hext.2.1, hext.2.2.1, hext.2.2.2,
    refs_val_ext hext.2.2.1, group_syms_val_ext hext.2.2.2⟩

/-- C7 amended witness: the concrete walk of the counterexample satisfies
the amended frame property. -/
theorem walk_frame_witness :
    envA'.defs = envA.defs ∧ envA'.global_defs = envA.global_defs ∧
    refs_empty_extension envA.refs envA'.refs ∧
    dg_empty_extension envA.defs_grouped envA'.defs_grouped ∧
    refs_val envA' "a" = refs_val envA "a" ∧
    group_syms_val envA' (Group.obj oA) = group_syms_val envA (Group.obj oA) :=
  have h := walk_frame cfgWA count_cb 3 "b" [] envA 0 envA' 1 true (by decide)
  ⟨h.1, h.2.1, h.2.2.1, h.2.2.2.1, h.2.2.2.2.1 "a", h.2.2.2.2.2 (Group.obj oA)⟩

/-! ### C8: tracing an undefined symbol -/

theorem global_defs_lookup_fst (e : Env) (n : String) :
    (global_defs_lookup e n).1 = (alookup n e.global_defs).getD [] := by
  unfold global_defs_lookup
  cases alookup n e.global_defs <;> rfl

theorem defs_lookup_fst (e : Env) (n : String) :
    (defs_lookup e n).1 = (alookup n e.defs).getD [] := by
  unfold defs_lookup
  cases alookup n e.defs <;> rfl

theorem global_defs_lookup_defs (e : Env) (n : String) :
    (global_defs_lookup e n).2.defs = e.defs := by
  unfold global_defs_lookup
  cases alookup n e.global_defs <;> rfl

theorem global_defs_lookup_refs (e : Env) (n : String) :
    (global_defs_lookup e n).2.refs = e.refs := by
  unfold global_defs_lookup
  cases alookup n e.global_defs <;> rfl

theorem defs_lookup_refs (e : Env) (n : String) :
    (defs_lookup e n).2.refs = e.refs := by
  unfold defs_lookup
  cases alookup n e.defs <;> rfl

/-- A symbol with no incoming references: the walk takes the leaf branch at
once (the only environment change being the `defaultdict` insertion of the
missing `refs` key), and with an empty prefix nothing is reported. -/
theorem walk_leaf {σ : Type} (cfg : Config) (cb : σ → LinkReferencePath → σ × Bool)
    (fuel : Nat) (n : String) (env : Env) (s : σ) (hr : refs_val env n = []) :
    walk_link_ref_paths cfg cb (fuel + 1) n [] env s =
      some ((refs_lookup env n).2, s, true) := by
  rw [walk_succ]
  have h1 : (refs_lookup env n).1.isEmpty = true := by
    rw [(refs_lookup_spec env n).1, hr]
    rfl
  rw [if_pos h1, prune_nil]
  rfl

/-- The environment `envA` after tracing the undefined-but-referenced symbol
`b`: the reporter's `or`-lookups have inserted empty entries for `b` into
`global_defs` and `defs`, and the walk has inserted the empty `refs` entry
for the leaf symbol `a`. -/
def envB' : Env :=
  { defs := envA.defs ++ [("b", [])]
    global_defs := envA.global_defs ++ [("b", [])]
    defs_grouped := envA.defs_grouped
    refs := envA.refs ++ [("a", [])] }

/-- C8 counterexample: `b` is absent from all definitions in `envA`, yet it
is referenced by `a`, so the trace walks into the referencing symbol and
reports a (one-step, through `a.o`) path: `no_paths_found` is `false` — no
"not found" result — and the traversal visited the referencing symbol,
contradicting the claim. -/
theorem trace_undefined_counterexample :
    (alookup "b" envA.defs).getD [] = [] ∧ (alookup "b" envA.global_defs).getD [] = [] ∧
    trace_symbol cfgWA 3 envA "b" = some (envB', ⟨[], [[stepA]], false⟩) ∧
    ([[stepA]] : List LinkReferencePath) ≠ [] := by
  refine ⟨by decide, by decide, by decide, by decide⟩

/-- C8 (amended): for every traced symbol name absent from all definitions
and with no entry in the reference index, the reporter prints the "No paths
found" result, reports no path, and the search performs zero graph traversal
(the walk returns from its leaf branch without visiting any referencing
symbol). -/
theorem trace_undefined_no_refs (cfg : Config) (fuel : Nat) (env : Env) (n : String)
    (hg : (alookup n env.global_defs).getD [] = [])
    (hd : (alookup n env.defs).getD [] = [])
    (hr : refs_val env n = []) :
    (trace_symbol cfg (fuel + 1) env n).map
        (fun p => (p.2.defined_syms, p.2.reported, p.2.no_paths_found)) =
      some ([], [], true) := by
  have hg1 : (global_defs_lookup env n).1 = [] := by
    rw [global_defs_lookup_fst, hg]
  have hd1 : (defs_lookup (global_defs_lookup env n).2 n).1 = [] := by
    rw [defs_lookup_fst, global_defs_lookup_defs, hd]
  have hrv : refs_val (defs_lookup (global_defs_lookup env n).2 n).2 n = [] := by
    unfold refs_val at hr ⊢
    rw [defs_lookup_refs, global_defs_lookup_refs]
    exact hr
  unfold trace_symbol
  dsimp only
  rw [show (if (global_defs_lookup env n).1.isEmpty then
        defs_lookup (global_defs_lookup env n).2 n
      else global_defs_lookup env n) = defs_lookup (global_defs_lookup env n).2 n from by
    rw [hg1]
    rfl]
  rw [walk_leaf cfg (dedup_cb cfg.first_only) fuel n _ [] hrv]
  simp [hd1]

/-- C8 amended witness: tracing the completely unknown name `z` in `envA`
reports not-found with nothing reported. -/
theorem trace_undefined_no_refs_witness :
    (trace_symbol cfgWA 1 envA "z").map
        (fun p => (p.2.defined_syms, p.2.reported, p.2.no_paths_found)) =
      some ([], [], true) :=
  trace_undefined_no_refs cfgWA 0 envA "z" (by decide) (by decide) (by decide)

/-! ### C9: duplicate-definition warnings -/

theorem emit_false_eq :
    ∀ gd : List (String × List DefinedSymbol),
      emit_conflict_warnings false gd =
        ((gd.filter (fun p => 2 ≤ non_weak_global_count p.2)).map
          (fun p => ⟨p.1, p.2⟩), false) := by
  intro gd
  induction gd with
  | nil => rfl
  | cons p rest ih =>
    rcases p with ⟨n, syms⟩
    simp only [emit_conflict_warnings, List.filter_cons]
    by_cases hc : non_weak_global_count syms ≤ 1
    · rw [if_pos hc, ih]
      have h2 : ¬ 2 ≤ non_weak_global_count syms := by omega
      simp [h2]
    · rw [if_neg hc, ih]
      have h2 : 2 ≤ non_weak_global_count syms := by omega
      simp [h2]

/-- C9: after all inputs are processed, for every symbol name with two or
more global non-weak (`'T'`) definitions exactly one warning is emitted,
listing the name's full global-definition record list; names with at most
one non-weak global definition produce no warning (second conjunct: the
warning list has pairwise-distinct names and `⟨n, syms⟩` is warned iff `n`
conflicts).  With fail-on-warning active the loop emits only the first
conflicting name's warning and exits immediately (third conjunct), and the
pipeline aborts with those warnings before any path search runs (fourth
conjunct). -/
theorem conflict_warnings_spec :
    (∀ gd : List (String × List DefinedSymbol),
      emit_conflict_warnings false gd =
        ((gd.filter (fun p => 2 ≤ non_weak_global_count p.2)).map
          (fun p => ⟨p.1, p.2⟩), false)) ∧
    (∀ gd : List (String × List DefinedSymbol), (gd.map Prod.fst).Nodup →
      ((emit_conflict_warnings false gd).1.map ConflictWarning.name).Nodup ∧
      (∀ (n : String) (syms : List DefinedSymbol), (n, syms) ∈ gd →
        ((⟨n, syms⟩ : ConflictWarning) ∈ (emit_conflict_warnings false gd).1 ↔
          2 ≤ non_weak_global_count syms))) ∧
    (∀ (gd pre post : List (String × List DefinedSymbol)) (p : String × List DefinedSymbol),
      gd = pre ++ p :: post → (∀ q ∈ pre, non_weak_global_count q.2 ≤ 1) →
      2 ≤ non_weak_global_count p.2 →
      emit_conflict_warnings true gd = ([⟨p.1, p.2⟩], true)) ∧
    (∀ (cfg : Config) (fuel : Nat) (env : Env) (ts : List String),
      (emit_conflict_warnings true env.global_defs).2 = true →
      run_pipeline cfg true fuel env ts =
        .error (.fatalWarnings (emit_conflict_warnings true env.global_defs).1)) := by
  refine ⟨emit_false_eq, ?_, ?_, ?_⟩
  · intro gd hnodup
    constructor
    · rw [emit_false_eq]
      have heq : (((gd.filter (fun p => 2 ≤ non_weak_global_count p.2)).map
          (fun p => (⟨p.1, p.2⟩ : ConflictWarning)), false).1.map ConflictWarning.name)
          = (gd.filter (fun p => 2 ≤ non_weak_global_count p.2)).map Prod.fst := by
        simp only [List.map_map]
        rfl
      rw [heq]
      refine List.Nodup.sublist ?_ hnodup
      exact List.Sublist.map Prod.fst (List.filter_sublist gd)
    · intro n syms hmem
      rw [emit_false_eq]
      constructor
      · intro hw
        obtain ⟨p, hpf, hpe⟩ := List.mem_map.mp hw
        have hp2 : p = (n, syms) := by
          rcases p with ⟨a, b⟩
          injection hpe with h1 h2
          exact Prod.ext h1 h2
        rw [hp2] at hpf
        have := List.of_mem_filter hpf
        simpa using this
      · intro hc
        refine List.mem_map.mpr ⟨(n, syms), ?_, rfl⟩
        exact List.mem_filter.mpr ⟨hmem, by simpa using hc⟩
  · intro gd pre post p heq hpre hp2
    subst heq
    induction pre with
    | nil =>
      rcases p with ⟨n, syms⟩
      have hp2' : 2 ≤ non_weak_global_count syms := hp2
      simp only [List.nil_append, emit_conflict_warnings]
      rw [if_neg (by omega)]
      simp
    | cons q qre ihp =>
      rcases q with ⟨m, ms⟩
      simp only [List.cons_append, emit_conflict_warnings]
      rw [if_pos (hpre (m, ms) (by simp))]
      exact ihp (fun q hq => hpre q (by simp [hq]))
  · intro cfg fuel env ts hfat
    unfold run_pipeline
    rw [if_pos hfat]

/-- C9 witness: in `gd9`, `foo` has two non-weak global definitions and `ok`
one; the non-fatal pass warns exactly once (for `foo`, listing both
definitions), the fatal pass stops after that warning, and the pipeline
errors out before tracing. -/
theorem conflict_warnings_spec_witness :
    emit_conflict_warnings false gd9 =
      ((gd9.filter (fun p => 2 ≤ non_weak_global_count p.2)).map
        (fun p => ⟨p.1, p.2⟩), false) ∧
    (((emit_conflict_warnings false gd9).1.map ConflictWarning.name).Nodup ∧
      ((⟨"foo", [dFoo1, dFoo2]⟩ : ConflictWarning) ∈ (emit_conflict_warnings false gd9).1 ↔
        2 ≤ non_weak_global_count [dFoo1, dFoo2]) ∧
      ((⟨"ok", [dA]⟩ : ConflictWarning) ∈ (emit_conflict_warnings false gd9).1 ↔
        2 ≤ non_weak_global_count [dA])) ∧
    emit_conflict_warnings true gd9 = ([⟨"foo", [dFoo1, dFoo2]⟩], true) ∧
    run_pipeline cfgWA true 1 env9 ["foo"] =
      .error (.fatalWarnings (emit_conflict_warnings true env9.global_defs).1) :=
  ⟨conflict_warnings_spec.1 gd9,
   ⟨(conflict_warnings_spec.2.1 gd9 (by decide)).1,
    (conflict_warnings_spec.2.1 gd9 (by decide)).2 "foo" [dFoo1, dFoo2] (by decide),
    (conflict_warnings_spec.2.1 gd9 (by decide)).2 "ok" [dA] (by decide)⟩,
   conflict_warnings_spec.2.2.1 gd9 [] [("ok", [dA])] ("foo", [dFoo1, dFoo2]) rfl
     (by simp) (by decide),
   conflict_warnings_spec.2.2.2 cfgWA 1 env9 ["foo"] (by decide)⟩

/-! ### C6: the witness choice depends on the reference-set iteration
order -/

/-- C6 (code bug): the two lists hold the same reference set — they are the
two possible iteration orders of the `frozenset` at lines 449/453 resp.
483/490 — yet `select_witness` (the embedded `next(...)` expression) picks a
different direct witness from each, so the reported witness (and its printed
source location) depends on the set's iteration order.  CPython derives that
order from per-process randomized string hashes, so two runs of the program
on identical input can print different output, contradicting the
spec-required determinism. -/
theorem select_witness_order_dependent :
    List.Perm [rW1, rW2] [rW2, rW1] ∧
    select_witness [rW1, rW2] dA ≠ select_witness [rW2, rW1] dA ∧
    select_witness [rW1, rW2] dA = .direct rW1 ∧
    select_witness [rW2, rW1] dA = .direct rW2 := by
  refine ⟨List.Perm.swap rW2 rW1 [], by decide, by decide, by decide⟩

/-! ### C10: a `R_X86_64_PLT32` operand that still starts with a dot -/

/-- C10: a call-style (`R_X86_64_PLT32`) relocation whose target operand
still begins with a dot after removing `.text.` hits `assert not
starts_with_dot` (line 332) — an assertion failure — whereas the same
operand under `R_X86_64_PC32` is silently skipped (line 328-331). -/
theorem reloc_plt32_dot_asserts (operand : String)
    (hdot : starts_with_dot (replace_all ".text.".data [] operand.data) = true) :
    process_reloc_target .plt32 operand = .assertionFailure ∧
    process_reloc_target .pc32 operand = .skipped := by
  constructor
  · unfold process_reloc_target
    dsimp only
    rw [if_pos hdot]
  · unfold process_reloc_target
    dsimp only
    rw [if_pos hdot]

/-- C10 witness: the jump-table-style operand `.Lfoo-0x4` (as in
`R_X86_64_PLT32 .Lfoo-0x4`) asserts instead of being skipped. -/
theorem reloc_plt32_dot_asserts_witness :
    process_reloc_target RelocKind.plt32 ".Lfoo-0x4" = RelocParse.assertionFailure ∧
    process_reloc_target RelocKind.pc32 ".Lfoo-0x4" = RelocParse.skipped :=
  reloc_plt32_dot_asserts ".Lfoo-0x4" (by decide)

end LdTrace
